import Mathlib

/-!
# Lamport one-time signatures (`pset01/main.go`)

A shallow embedding of the hash-based signature program: the `Block` type and its
hex codec, the public-key and signature wire formats, `Sign` and `Verify`.

Conventions of the embedding

* a Go `byte` is a `Fin 256`; arithmetic on bytes is done on naturals, reduced
  modulo `256` where the machine operation could overflow;
* a Go `string` and a Go `[]byte` are both a `List Byte` (a Go string is a byte
  sequence and `len` counts bytes);
* a Go array `[n]T` is a function `Fin n → T`, and `a[k] = v` is `Function.update`;
* a counted `for` loop is `forRange`; its body may fall through, `return`, or
  raise the index-out-of-range panic, so the loops of `Sign` and `Verify` carry the
  running index `k` as a natural number and check it at every access;
* the library function `sha256.Sum256` is a parameter `sha256 : Bytes → Block`.
-/

namespace Lamport

/-! ## Data model -/

/-- A Go `byte`. -/
abbrev Byte := Fin 256

/-- A Go `string` or `[]byte`. -/
abbrev Bytes := List Byte

/-- The type `Block [32]byte`. -/
abbrev Block := Fin 32 → Byte

/-- The type `Message Block`. -/
abbrev Message := Block

/-- The zero value of `Block`. -/
def zeroBlock : Block := fun _ => 0

/-- The zero value of `[256]Block`. -/
def zeroBlocks : Fin 256 → Block := fun _ => zeroBlock

/-- The struct `SecretKey`. -/
structure SecretKey where
  ZeroPre : Fin 256 → Block
  OnePre : Fin 256 → Block

/-- The struct `PublicKey`. -/
structure PublicKey where
  ZeroHash : Fin 256 → Block
  OneHash : Fin 256 → Block

/-- The struct `Signature`. -/
structure Signature where
  Preimage : Fin 256 → Block

/-- The slice `block[:]`. -/
def Block.slice (block : Block) : Bytes := List.ofFn block

/-! ## Control flow of counted loops -/

/-- Outcome of a loop body: fall through with a new state, `return r`, or panic. -/
inductive Flow (ρ σ : Type) where
  | next : σ → Flow ρ σ
  | ret : ρ → Flow ρ σ
  | panic : Flow ρ σ

/-- The loop `for i := lo; i < lo + n; i++ { body }`. -/
def forRange {ρ σ : Type} (body : Nat → σ → Flow ρ σ) : Nat → Nat → σ → Flow ρ σ
  | _, 0, s => Flow.next s
  | lo, n + 1, s =>
    match body lo s with
    | Flow.next s' => forRange body (lo + 1) n s'
    | Flow.ret r => Flow.ret r
    | Flow.panic => Flow.panic

/-! ## Library functions: `encoding/hex`, `fmt`, `bytes`, `copy` -/

/-- The table `hextable = "0123456789abcdef"` of `encoding/hex` (and `ldigits` of `fmt`). -/
def hextable : List Byte :=
  [48, 49, 50, 51, 52, 53, 54, 55, 56, 57, 97, 98, 99, 100, 101, 102]

/-- Table lookup `hextable[n]`. -/
def hexDigit (n : Nat) : Byte := hextable.getD n 0

/-- The function `hex.EncodeToString`: per byte `v`, `hextable[v>>4]` then `hextable[v&0x0f]`. -/
def EncodeToString : Bytes → Bytes
  | [] => []
  | v :: rest => hexDigit (v.val >>> 4) :: hexDigit (v.val &&& 0x0f) :: EncodeToString rest

/-- The formatting `fmt.Sprintf("%064x", b)` of a byte slice: lowercase hex, two characters
per byte, padded on the left with `0` up to width 64. -/
def Sprintf064x (b : Bytes) : Bytes := List.leftpad 64 (48 : Byte) (EncodeToString b)

/-- The function `fromHexChar` of `encoding/hex`: the value of a hex digit, if it is one. -/
def fromHexChar (c : Byte) : Option Nat :=
  if 48 ≤ c.val ∧ c.val ≤ 57 then some (c.val - 48)
  else if 97 ≤ c.val ∧ c.val ≤ 102 then some (c.val - 97 + 10)
  else if 65 ≤ c.val ∧ c.val ≤ 70 then some (c.val - 65 + 10)
  else none

/-- The errors of `encoding/hex`. -/
inductive HexError where
  | InvalidByteError : Byte → HexError
  | ErrLength : HexError
  deriving DecidableEq

/-- The byte `(a << 4) | b`. -/
def packNibbles (a b : Nat) : Byte := ⟨(((a <<< 4) % 256) ||| b) % 256, Nat.mod_lt _ (by decide)⟩

/-- The loop of `hex.Decode`: reads two characters at a time into `dst`, fails at the first
character that is not a hex digit, and fails with `ErrLength` on a trailing single digit. -/
def decodeLoop (dst : Array Byte) : Bytes → Except HexError Bytes
  | [] => Except.ok dst.toList
  | [p] =>
    match fromHexChar p with
    | none => Except.error (HexError.InvalidByteError p)
    | some _ => Except.error HexError.ErrLength
  | p :: q :: rest =>
    match fromHexChar p with
    | none => Except.error (HexError.InvalidByteError p)
    | some a =>
      match fromHexChar q with
      | none => Except.error (HexError.InvalidByteError q)
      | some b => decodeLoop (dst.push (packNibbles a b)) rest

/-- The function `hex.DecodeString`. -/
def DecodeString (s : Bytes) : Except HexError Bytes := decodeLoop Array.empty s

/-- The method `(*bytes.Buffer).Next(n)`: the next `n` unread bytes (all of them if fewer
remain) and the buffer advanced past them. -/
def BufferNext (buf : Bytes) (n : Nat) : Bytes × Bytes := (buf.take n, buf.drop n)

/-! ## Methods on `Block` -/

/-- The method `Block.ToHex`. -/
def Block.ToHex (block : Block) : Bytes := Sprintf064x block.slice

/-- The method `Block.Hash`. -/
def Block.Hash (sha256 : Bytes → Block) (block : Block) : Block := sha256 block.slice

/-- The method `Block.IsPreimage`. -/
def Block.IsPreimage (sha256 : Bytes → Block) (block arg : Block) : Bool :=
  decide (Block.Hash sha256 block = arg)

/-- The function `BlockFromByteSlice`: `copy(bl[:], by)` into a zero block copies the first
`min(32, len(by))` bytes. -/
def BlockFromByteSlice (bys : Bytes) : Block :=
  fun i => if h : i.val < bys.length then bys.get ⟨i.val, h⟩ else 0

/-! ## Wire formats -/

/-- The loop `for _, b := range blocks { s += b.ToHex() }`. -/
def appendHex (s : Bytes) (blocks : Fin 256 → Block) : Bytes :=
  (List.ofFn blocks).foldl (fun acc b => acc ++ b.ToHex) s

/-- The method `PublicKey.ToHex`. -/
def PublicKey.ToHex (publicKey : PublicKey) : Bytes :=
  appendHex (appendHex [] publicKey.ZeroHash) publicKey.OneHash

/-- The method `Signature.ToHex`. -/
def Signature.ToHex (sig : Signature) : Bytes :=
  appendHex [] sig.Preimage

/-- The loop `for i := range arr { arr[i] = BlockFromByteSlice(buf.Next(32)) }`, on the
unread part of the buffer and the array. -/
def readBlocks (buf : Bytes) (arr : Fin 256 → Block) : Bytes × (Fin 256 → Block) :=
  (List.finRange 256).foldl
    (fun st i => ((BufferNext st.1 32).2,
      Function.update st.2 i (BlockFromByteSlice (BufferNext st.1 32).1)))
    (buf, arr)

/-- The errors returned by the decoders. -/
inductive DecodeError where
  | length : Nat → Nat → DecodeError
  | hex : HexError → DecodeError
  deriving DecidableEq

/-- The function `HexToPubkey`. -/
def HexToPubkey (s : Bytes) : Except DecodeError PublicKey :=
  let expectedLength := 256 * 2 * 64
  if s.length ≠ expectedLength then
    Except.error (DecodeError.length s.length expectedLength)
  else
    match DecodeString s with
    | Except.error err => Except.error (DecodeError.hex err)
    | Except.ok bts =>
      let r0 := readBlocks bts zeroBlocks
      let r1 := readBlocks r0.1 zeroBlocks
      Except.ok ⟨r0.2, r1.2⟩

/-- The function `HexToSignature`. -/
def HexToSignature (s : Bytes) : Except DecodeError Signature :=
  let expectedLength := 256 * 64
  if s.length ≠ expectedLength then
    Except.error (DecodeError.length s.length expectedLength)
  else
    match DecodeString s with
    | Except.error err => Except.error (DecodeError.hex err)
    | Except.ok bts =>
      let r0 := readBlocks bts zeroBlocks
      Except.ok ⟨r0.2⟩

/-- The function `GetMessageFromString`. -/
def GetMessageFromString (sha256 : Bytes → Block) (s : Bytes) : Message := sha256 s

/-! ## Sign -/

/-- The test `b&(1<<(7-j)) != 0` on a byte. -/
def bitSet (b : Byte) (j : Nat) : Bool := decide (b.val &&& ((1 <<< (7 - j)) % 256) ≠ 0)

/-- The loop variables of `Sign`. -/
structure SignState where
  k : Nat
  sig : Signature

/-- The body of the inner loop of `Sign`; every path first indexes at `k`. -/
def signBody (sec : SecretKey) (b : Byte) (j : Nat) (st : SignState) : Flow Signature SignState :=
  if h : st.k < 256 then
    if bitSet b j then
      Flow.next ⟨st.k + 1, ⟨Function.update st.sig.Preimage ⟨st.k, h⟩ (sec.OnePre ⟨st.k, h⟩)⟩⟩
    else
      Flow.next ⟨st.k + 1, ⟨Function.update st.sig.Preimage ⟨st.k, h⟩ (sec.ZeroPre ⟨st.k, h⟩)⟩⟩
  else Flow.panic

/-- The body of the outer loop of `Sign`: `b = hash[i]`, then the eight bits. -/
def signOuter (sec : SecretKey) (hash : Block) (i : Nat) (st : SignState) :
    Flow Signature SignState :=
  if h : i < 32 then forRange (signBody sec (hash ⟨i, h⟩)) 0 8 st else Flow.panic

/-- The function `Sign`; `none` is a run-time panic. -/
def Sign (sha256 : Bytes → Block) (msg : Message) (sec : SecretKey) : Option Signature :=
  let hash := sha256 msg.slice
  match forRange (signOuter sec hash) 0 32 ⟨0, ⟨zeroBlocks⟩⟩ with
  | Flow.next st => some st.sig
  | Flow.ret sig => some sig
  | Flow.panic => none

/-! ## Verify -/

/-- The loop variables of `Verify`. -/
structure VerifyState where
  k : Nat
  verify : Fin 256 → Block
  verifyHash : Fin 256 → Block
  isVerified : Bool

/-- The statement `verify[k][n] = src[k][n]`. -/
def copyByte (src : Fin 256 → Block) (k : Fin 256) (n : Nat) (verify : Fin 256 → Block) :
    Flow Bool (Fin 256 → Block) :=
  if h : n < 32 then
    Flow.next (Function.update verify k (Function.update (verify k) ⟨n, h⟩ (src k ⟨n, h⟩)))
  else Flow.panic

/-- The body of the inner loop of `Verify`; every path first indexes at `k`. -/
def verifyBody (sha256 : Bytes → Block) (pub : PublicKey) (sig : Signature) (b : Byte) (j : Nat)
    (st : VerifyState) : Flow Bool VerifyState :=
  if h : st.k < 256 then
    match forRange (copyByte (if bitSet b j then pub.OneHash else pub.ZeroHash) ⟨st.k, h⟩)
        0 32 st.verify with
    | Flow.next verify =>
      let verifyHash :=
        Function.update st.verifyHash ⟨st.k, h⟩ (sha256 (sig.Preimage ⟨st.k, h⟩).slice)
      if verifyHash ⟨st.k, h⟩ = verify ⟨st.k, h⟩ then
        Flow.next ⟨st.k + 1, verify, verifyHash, true⟩
      else
        Flow.ret false
    | Flow.ret r => Flow.ret r
    | Flow.panic => Flow.panic
  else Flow.panic

/-- The body of the outer loop of `Verify`: `b = hash[i]`, then the eight bits. -/
def verifyOuter (sha256 : Bytes → Block) (pub : PublicKey) (sig : Signature) (hash : Block)
    (i : Nat) (st : VerifyState) : Flow Bool VerifyState :=
  if h : i < 32 then forRange (verifyBody sha256 pub sig (hash ⟨i, h⟩)) 0 8 st else Flow.panic

/-- The function `Verify`; `none` is a run-time panic. -/
def Verify (sha256 : Bytes → Block) (msg : Message) (pub : PublicKey) (sig : Signature) :
    Option Bool :=
  let hash := sha256 msg.slice
  match forRange (verifyOuter sha256 pub sig hash) 0 32 ⟨0, zeroBlocks, zeroBlocks, false⟩ with
  | Flow.next st => some st.isVerified
  | Flow.ret r => some r
  | Flow.panic => none

/-! ## GenerateKey -/

/-- The random source `crypto/rand`: the outcome of its `t`-th 32-byte read, counted from 0,
which is either the 32 bytes read or a failure. -/
abbrev RandSource := Nat → Option Block

/-- A non-nil Go `error` value. -/
structure GoError where
  text : Bytes

/-- The function `Generate256BitNumber`, on the number of reads made so far: the block read
and the new count, or `none` for `panic(err)`. -/
def Generate256BitNumber (rng : RandSource) (reads : Nat) : Option (Block × Nat) :=
  match rng reads with
  | some num => some (num, reads + 1)
  | none => none

/-- The loop variables of `GenerateKey`, with the number of reads made so far. -/
structure GenState where
  reads : Nat
  sec : SecretKey
  pub : PublicKey

/-- The body of the loop of `GenerateKey`. -/
def generateBody (sha256 : Bytes → Block) (rng : RandSource) (x : Nat) (st : GenState) :
    Flow (SecretKey × PublicKey × Option GoError) GenState :=
  if h : x < 256 then
    match Generate256BitNumber rng st.reads with
    | none => Flow.panic
    | some (zero, reads1) =>
      let zeroPre := Function.update st.sec.ZeroPre ⟨x, h⟩ zero
      match Generate256BitNumber rng reads1 with
      | none => Flow.panic
      | some (one, reads2) =>
        let onePre := Function.update st.sec.OnePre ⟨x, h⟩ one
        let zeroHash := Function.update st.pub.ZeroHash ⟨x, h⟩ (sha256 (zeroPre ⟨x, h⟩).slice)
        let oneHash := Function.update st.pub.OneHash ⟨x, h⟩ (sha256 (onePre ⟨x, h⟩).slice)
        Flow.next ⟨reads2, ⟨zeroPre, onePre⟩, ⟨zeroHash, oneHash⟩⟩
  else Flow.panic

/-- The loop of `GenerateKey`, from the zero values of `sec` and `pub`. -/
def generateLoop (sha256 : Bytes → Block) (rng : RandSource) :
    Flow (SecretKey × PublicKey × Option GoError) GenState :=
  forRange (generateBody sha256 rng) 0 256 ⟨0, ⟨zeroBlocks, zeroBlocks⟩, ⟨zeroBlocks, zeroBlocks⟩⟩

/-- The function `GenerateKey`: the triple it returns, whose last component is the `error`
(`none` for `nil`); the result `none` is a run-time panic. -/
def GenerateKey (sha256 : Bytes → Block) (rng : RandSource) :
    Option (SecretKey × PublicKey × Option GoError) :=
  match generateLoop sha256 rng with
  | Flow.next st => some (st.sec, st.pub, none)
  | Flow.ret r => some r
  | Flow.panic => none

/-! ## Specification-level views -/

/-- Bit `k` of a digest, bytes in order and most significant bit first within a byte:
bit `7 - k mod 8` of byte `k div 8`. -/
def digestBit (d : Block) (k : Fin 256) : Bool :=
  (d ⟨k.val / 8, by omega⟩).val.testBit (7 - k.val % 8)

/-- The block that `Sign` reveals at position `k`. -/
def revealed (sec : SecretKey) (d : Block) (k : Fin 256) : Block :=
  if digestBit d k then sec.OnePre k else sec.ZeroPre k

/-- The commitment that `Verify` selects at position `k`. -/
def expected (pub : PublicKey) (d : Block) (k : Fin 256) : Block :=
  if digestBit d k then pub.OneHash k else pub.ZeroHash k

/-- The check of `Verify` at position `k`. -/
def positionOk (sha256 : Bytes → Block) (d : Block) (pub : PublicKey) (sig : Signature)
    (k : Fin 256) : Prop :=
  sha256 (sig.Preimage k).slice = expected pub d k

instance (sha256 : Bytes → Block) (d : Block) (pub : PublicKey) (sig : Signature)
    (k : Fin 256) : Decidable (positionOk sha256 d pub sig k) := by
  unfold positionOk
  infer_instance

/-- Invariant of `Sign`: every position below `k` holds the revealed block. -/
def SignInv (sec : SecretKey) (d : Block) (st : SignState) : Prop :=
  ∀ x : Fin 256, x.val < st.k → st.sig.Preimage x = revealed sec d x

/-- The check at a position given as a natural number. -/
def okAt (sha256 : Bytes → Block) (d : Block) (pub : PublicKey) (sig : Signature) (x : Nat) :
    Prop :=
  ∀ h : x < 256, positionOk sha256 d pub sig ⟨x, h⟩

/-- The 512 blocks of a public key in wire order. -/
def PublicKey.blocks (p : PublicKey) : List Block := List.ofFn p.ZeroHash ++ List.ofFn p.OneHash

/-- A hexadecimal digit: `0-9`, `a-f` or `A-F`. -/
def isHexDigit (c : Byte) : Prop :=
  (48 ≤ c.val ∧ c.val ≤ 57) ∨ (97 ≤ c.val ∧ c.val ≤ 102) ∨ (65 ≤ c.val ∧ c.val ≤ 70)

instance (c : Byte) : Decidable (isHexDigit c) := by
  unfold isHexDigit
  infer_instance

/-- A lowercase hexadecimal digit: `0-9` or `a-f`. -/
def isLowerHexDigit (c : Byte) : Prop :=
  (48 ≤ c.val ∧ c.val ≤ 57) ∨ (97 ≤ c.val ∧ c.val ≤ 102)

instance (c : Byte) : Decidable (isLowerHexDigit c) := by
  unfold isLowerHexDigit
  infer_instance

/-- The value of a hex digit (`0` for any other character). -/
def hexValue (c : Byte) : Nat := (fromHexChar c).getD 0

/-- The bytes spelled by a string of hex digits, two digits per byte. -/
def decodePairs : Bytes → Bytes
  | p :: q :: rest => packNibbles (hexValue p) (hexValue q) :: decodePairs rest
  | _ => []

/-- Invariant of `GenerateKey` after `x` iterations: below `x`, the secret blocks are the
reads `2i` and `2i+1` and the public blocks are their hashes. -/
def GenInv (sha256 : Bytes → Block) (rng : RandSource) (x : Nat) (st : GenState) : Prop :=
  ∀ i : Fin 256, i.val < x →
    rng (2 * i.val) = some (st.sec.ZeroPre i) ∧ rng (2 * i.val + 1) = some (st.sec.OnePre i) ∧
    st.pub.ZeroHash i = sha256 (st.sec.ZeroPre i).slice ∧
    st.pub.OneHash i = sha256 (st.sec.OnePre i).slice

/-- The lowercase form of a character: `A-F` become `a-f`, any other character is kept. -/
def toLowerHex (c : Byte) : Byte := if 65 ≤ c.val ∧ c.val ≤ 70 then c + 32 else c

/-! ## A concrete key pair, message and signature -/

/-- A stand-in for the hash function on concrete instances: byte `i` of the input plus
`7 * i + 3`, modulo 256. -/
def demoHash (bs : Bytes) : Block :=
  fun i => bs.getD i.val 0 + ⟨(7 * i.val + 3) % 256, Nat.mod_lt _ (by decide)⟩

/-- A concrete secret key. -/
def demoSec : SecretKey :=
  ⟨fun k i => ⟨(k.val + i.val) % 256, Nat.mod_lt _ (by decide)⟩,
    fun k i => ⟨(2 * k.val + i.val + 1) % 256, Nat.mod_lt _ (by decide)⟩⟩

/-- The public key of `demoSec` under `demoHash`. -/
def demoPub : PublicKey :=
  ⟨fun k => demoHash (demoSec.ZeroPre k).slice, fun k => demoHash (demoSec.OnePre k).slice⟩

/-- The message of `main`: `GetMessageFromString("1")`. -/
def demoMsg : Message := GetMessageFromString demoHash [49]

/-- The signature of `demoMsg` under `demoSec`. -/
def demoSig : Signature := ⟨revealed demoSec (demoHash demoMsg.slice)⟩

/-- A random source all of whose reads succeed: read `t` returns 32 bytes equal to
`t mod 256`. -/
def countSource : RandSource := fun t => some (fun _ => ⟨t % 256, Nat.mod_lt _ (by decide)⟩)

/-- A random source whose reads all fail. -/
def failingSource : RandSource := fun _ => none

/-- A second secret key: equal to `demoSec` on the blocks that signing `demoMsg` reveals, and
zero on the other blocks. -/
def demoSecAlt : SecretKey :=
  ⟨fun k => if digestBit (demoHash demoMsg.slice) k then zeroBlock else demoSec.ZeroPre k,
    fun k => if digestBit (demoHash demoMsg.slice) k then demoSec.OnePre k else zeroBlock⟩

/-- A first signed message: all bytes 0. -/
def demoMsg1 : Message := fun _ => 0

/-- A second signed message: all bytes 1. -/
def demoMsg2 : Message := fun _ => 1

/-- A third message: bytes 0 at even places and 1 at odd places. -/
def demoMsg3 : Message := fun i => if i.val % 2 = 0 then 0 else 1

/-! # Theorems -/

/-! ## Unfolding counted loops -/

theorem forRange_zero {ρ σ : Type} (body : Nat → σ → Flow ρ σ) (lo : Nat) (s : σ) :
    forRange body lo 0 s = Flow.next s := rfl

theorem forRange_succ_next {ρ σ : Type} (body : Nat → σ → Flow ρ σ) (lo n : Nat) (s s' : σ)
    (h : body lo s = Flow.next s') :
    forRange body lo (n + 1) s = forRange body (lo + 1) n s' := by
  simp only [forRange, h]

theorem forRange_succ_ret {ρ σ : Type} (body : Nat → σ → Flow ρ σ) (lo n : Nat) (s : σ) (r : ρ)
    (h : body lo s = Flow.ret r) :
    forRange body lo (n + 1) s = Flow.ret r := by
  simp only [forRange, h]

/-! ## The bit test -/

theorem bitSet_eq_testBit (b : Byte) (j : Nat) (hj : j < 8) :
    bitSet b j = b.val.testBit (7 - j) := by
  have h1 : (1 <<< (7 - j)) % 256 = 2 ^ (7 - j) := by
    rw [Nat.one_shiftLeft]
    apply Nat.mod_eq_of_lt
    calc 2 ^ (7 - j) ≤ 2 ^ 7 := Nat.pow_le_pow_right (by decide) (by omega)
      _ < 256 := by decide
  unfold bitSet
  rw [h1, Nat.and_two_pow]
  cases hb : b.val.testBit (7 - j)
  · simp
  · have : 0 < 2 ^ (7 - j) := Nat.two_pow_pos _
    simp

theorem bitSet_at (d : Block) (i j : Nat) (hi : i < 32) (hj : j < 8) (h : 8 * i + j < 256) :
    bitSet (d ⟨i, hi⟩) j = digestBit d ⟨8 * i + j, h⟩ := by
  rw [bitSet_eq_testBit _ _ hj]
  unfold digestBit
  have h1 : (8 * i + j) / 8 = i := by omega
  have h2 : (8 * i + j) % 8 = j := by omega
  simp only [h1, h2]

/-! ## The loops of `Sign` -/

theorem signBody_step (sec : SecretKey) (d : Block) (i j : Nat) (hi : i < 32) (hj : j < 8)
    (st : SignState) (hk : st.k = 8 * i + j) (hinv : SignInv sec d st) :
    ∃ st', signBody sec (d ⟨i, hi⟩) j st = Flow.next st' ∧ st'.k = 8 * i + (j + 1) ∧
      SignInv sec d st' := by
  have hlt : st.k < 256 := by omega
  have hbit : bitSet (d ⟨i, hi⟩) j = digestBit d ⟨st.k, hlt⟩ := by
    have := bitSet_at d i j hi hj (by omega)
    simp only [hk]
    exact this
  refine ⟨⟨st.k + 1, ⟨Function.update st.sig.Preimage ⟨st.k, hlt⟩ (revealed sec d ⟨st.k, hlt⟩)⟩⟩,
    ?_, ?_, ?_⟩
  · unfold signBody revealed
    rw [dif_pos hlt, hbit]
    cases digestBit d ⟨st.k, hlt⟩ <;> simp
  · simp only [hk]
    omega
  · intro x hx
    simp only [Function.update_apply]
    by_cases hxk : x = ⟨st.k, hlt⟩
    · simp [hxk]
    · rw [if_neg hxk]
      apply hinv
      have : x.val ≠ st.k := fun h => hxk (Fin.ext h)
      simp only at hx
      omega

theorem sign_inner (sec : SecretKey) (d : Block) (i : Nat) (hi : i < 32) :
    ∀ (n j : Nat) (st : SignState), j + n ≤ 8 → st.k = 8 * i + j → SignInv sec d st →
      ∃ st', forRange (signBody sec (d ⟨i, hi⟩)) j n st = Flow.next st' ∧
        st'.k = 8 * i + (j + n) ∧ SignInv sec d st' := by
  intro n
  induction n with
  | zero =>
    intro j st _ hk hinv
    exact ⟨st, rfl, by simpa using hk, hinv⟩
  | succ n ih =>
    intro j st hjn hk hinv
    obtain ⟨st1, h1, hk1, hinv1⟩ := signBody_step sec d i j hi (by omega) st hk hinv
    obtain ⟨st2, h2, hk2, hinv2⟩ := ih (j + 1) st1 (by omega) hk1 hinv1
    refine ⟨st2, ?_, ?_, hinv2⟩
    · rw [forRange_succ_next _ _ _ _ _ h1]
      exact h2
    · rw [hk2]
      omega

theorem sign_outer (sec : SecretKey) (d : Block) :
    ∀ (n i : Nat) (st : SignState), i + n ≤ 32 → st.k = 8 * i → SignInv sec d st →
      ∃ st', forRange (signOuter sec d) i n st = Flow.next st' ∧
        st'.k = 8 * (i + n) ∧ SignInv sec d st' := by
  intro n
  induction n with
  | zero =>
    intro i st _ hk hinv
    exact ⟨st, rfl, by simpa using hk, hinv⟩
  | succ n ih =>
    intro i st hin hk hinv
    have hi : i < 32 := by omega
    obtain ⟨st1, h1, hk1, hinv1⟩ := sign_inner sec d i hi 8 0 st (by omega) (by omega) hinv
    obtain ⟨st2, h2, hk2, hinv2⟩ := ih (i + 1) st1 (by omega) (by omega) hinv1
    have h1' : signOuter sec d i st = Flow.next st1 := by
      simp only [signOuter, dif_pos hi, h1]
    refine ⟨st2, ?_, ?_, hinv2⟩
    · rw [forRange_succ_next _ _ _ _ _ h1']
      exact h2
    · rw [hk2]
      omega

/-- What `Sign` computes: it never panics and reveals, at every position, the block selected
by the digest bit. -/
theorem Sign_eq (sha256 : Bytes → Block) (msg : Message) (sec : SecretKey) :
    Sign sha256 msg sec = some ⟨revealed sec (sha256 msg.slice)⟩ := by
  obtain ⟨st, h, hk, hinv⟩ := sign_outer sec (sha256 msg.slice) 32 0 ⟨0, ⟨zeroBlocks⟩⟩
    (by omega) rfl (fun x hx => absurd hx (Nat.not_lt_zero _))
  unfold Sign
  simp only [h]
  congr 1
  cases hs : st.sig with
  | mk pre =>
    congr 1
    funext x
    have := hinv x (by omega)
    rw [hs] at this
    exact this


/-! ## The loops of `Verify` -/

theorem copy_loop (src : Fin 256 → Block) (k : Fin 256) :
    ∀ (n n0 : Nat) (v : Fin 256 → Block), n0 + n ≤ 32 →
      (∀ t : Fin 32, t.val < n0 → v k t = src k t) →
      ∃ v', forRange (copyByte src k) n0 n v = Flow.next v' ∧
        ∀ t : Fin 32, t.val < n0 + n → v' k t = src k t := by
  intro n
  induction n with
  | zero =>
    intro n0 v _ hv
    exact ⟨v, rfl, fun t ht => hv t (by omega)⟩
  | succ n ih =>
    intro n0 v hn hv
    have h0 : n0 < 32 := by omega
    have hstep : copyByte src k n0 v = Flow.next
        (Function.update v k (Function.update (v k) ⟨n0, h0⟩ (src k ⟨n0, h0⟩))) := by
      simp only [copyByte, dif_pos h0]
    obtain ⟨v', h', hv'⟩ := ih (n0 + 1)
      (Function.update v k (Function.update (v k) ⟨n0, h0⟩ (src k ⟨n0, h0⟩))) (by omega)
      (fun t ht => by
      simp only [Function.update_same, Function.update_apply]
      by_cases htn : t = ⟨n0, h0⟩
      · simp [htn]
      · rw [if_neg htn]
        apply hv
        have : t.val ≠ n0 := fun h => htn (Fin.ext h)
        omega)
    refine ⟨v', ?_, fun t ht => hv' t (by omega)⟩
    rw [forRange_succ_next _ _ _ _ _ hstep]
    exact h'

theorem verifyBody_step (sha256 : Bytes → Block) (pub : PublicKey) (sig : Signature) (d : Block)
    (i j : Nat) (hi : i < 32) (hj : j < 8) (st : VerifyState) (hk : st.k = 8 * i + j) :
    (okAt sha256 d pub sig (8 * i + j) →
      ∃ st', verifyBody sha256 pub sig (d ⟨i, hi⟩) j st = Flow.next st' ∧
        st'.k = 8 * i + (j + 1) ∧ st'.isVerified = true) ∧
    (¬ okAt sha256 d pub sig (8 * i + j) →
      verifyBody sha256 pub sig (d ⟨i, hi⟩) j st = Flow.ret false) := by
  have hlt : st.k < 256 := by omega
  have hbit : bitSet (d ⟨i, hi⟩) j = digestBit d ⟨st.k, hlt⟩ := by
    have := bitSet_at d i j hi hj (by omega)
    simp only [hk]
    exact this
  obtain ⟨v', hcopy, hv'⟩ := copy_loop
    (if bitSet (d ⟨i, hi⟩) j then pub.OneHash else pub.ZeroHash) ⟨st.k, hlt⟩ 32 0 st.verify
    (by omega) (fun t ht => absurd ht (Nat.not_lt_zero _))
  have hrow : v' ⟨st.k, hlt⟩ = expected pub d ⟨st.k, hlt⟩ := by
    funext t
    rw [hv' t (by omega)]
    unfold expected
    rw [hbit]
    cases digestBit d ⟨st.k, hlt⟩ <;> rfl
  have hok : okAt sha256 d pub sig (8 * i + j) ↔
      sha256 (sig.Preimage ⟨st.k, hlt⟩).slice = expected pub d ⟨st.k, hlt⟩ := by
    unfold okAt positionOk
    constructor
    · intro h
      have := h (by omega)
      simp only [hk]
      exact this
    · intro h _
      simp only [hk] at h
      exact h
  constructor
  · intro h
    refine ⟨⟨st.k + 1, v', Function.update st.verifyHash ⟨st.k, hlt⟩
      (sha256 (sig.Preimage ⟨st.k, hlt⟩).slice), true⟩, ?_, ?_, rfl⟩
    · unfold verifyBody
      rw [dif_pos hlt]
      simp only [hcopy, Function.update_same, hrow]
      rw [if_pos (hok.mp h)]
    · simp only [hk]
      omega
  · intro h
    unfold verifyBody
    rw [dif_pos hlt]
    simp only [hcopy, Function.update_same, hrow]
    rw [if_neg (fun hh => h (hok.mpr hh))]

theorem verify_inner (sha256 : Bytes → Block) (pub : PublicKey) (sig : Signature) (d : Block)
    (i : Nat) (hi : i < 32) :
    ∀ (n j : Nat) (st : VerifyState), j + n ≤ 8 → st.k = 8 * i + j →
      ((∀ t, t < n → okAt sha256 d pub sig (8 * i + j + t)) →
        ∃ st', forRange (verifyBody sha256 pub sig (d ⟨i, hi⟩)) j n st = Flow.next st' ∧
          st'.k = 8 * i + (j + n) ∧ (0 < n ∨ st.isVerified = true → st'.isVerified = true)) ∧
      ((∃ t, t < n ∧ ¬ okAt sha256 d pub sig (8 * i + j + t)) →
        forRange (verifyBody sha256 pub sig (d ⟨i, hi⟩)) j n st = Flow.ret false) := by
  intro n
  induction n with
  | zero =>
    intro j st _ hk
    refine ⟨fun _ => ⟨st, rfl, by simpa using hk, fun h => ?_⟩, fun ⟨t, ht, _⟩ => ?_⟩
    · rcases h with h | h
      · omega
      · exact h
    · omega
  | succ n ih =>
    intro j st hjn hk
    obtain ⟨hyes, hno⟩ := verifyBody_step sha256 pub sig d i j hi (by omega) st hk
    by_cases h0 : okAt sha256 d pub sig (8 * i + j)
    · obtain ⟨st1, h1, hk1, hv1⟩ := hyes h0
      obtain ⟨ihyes, ihno⟩ := ih (j + 1) st1 (by omega) hk1
      rw [forRange_succ_next _ _ _ _ _ h1]
      constructor
      · intro hall
        obtain ⟨st2, h2, hk2, hv2⟩ := ihyes (fun t ht => by
          have := hall (t + 1) (by omega)
          have e : 8 * i + j + (t + 1) = 8 * i + (j + 1) + t := by omega
          rw [e] at this
          exact this)
        exact ⟨st2, h2, by rw [hk2]; omega, fun _ => hv2 (Or.inr hv1)⟩
      · rintro ⟨t, ht, hbad⟩
        apply ihno
        cases t with
        | zero => exact absurd h0 hbad
        | succ t =>
          refine ⟨t, by omega, ?_⟩
          have e : 8 * i + j + (t + 1) = 8 * i + (j + 1) + t := by omega
          rw [e] at hbad
          exact hbad
    · constructor
      · intro hall
        exact absurd (hall 0 (by omega)) h0
      · intro _
        exact forRange_succ_ret _ _ _ _ _ (hno h0)

theorem verify_outer (sha256 : Bytes → Block) (pub : PublicKey) (sig : Signature) (d : Block) :
    ∀ (n i : Nat) (st : VerifyState), i + n ≤ 32 → st.k = 8 * i →
      ((∀ t, t < 8 * n → okAt sha256 d pub sig (8 * i + t)) →
        ∃ st', forRange (verifyOuter sha256 pub sig d) i n st = Flow.next st' ∧
          st'.k = 8 * (i + n) ∧ (0 < n ∨ st.isVerified = true → st'.isVerified = true)) ∧
      ((∃ t, t < 8 * n ∧ ¬ okAt sha256 d pub sig (8 * i + t)) →
        forRange (verifyOuter sha256 pub sig d) i n st = Flow.ret false) := by
  intro n
  induction n with
  | zero =>
    intro i st _ hk
    refine ⟨fun _ => ⟨st, rfl, by simpa using hk, fun h => ?_⟩, fun ⟨t, ht, _⟩ => ?_⟩
    · rcases h with h | h
      · omega
      · exact h
    · omega
  | succ n ih =>
    intro i st hin hk
    have hi : i < 32 := by omega
    obtain ⟨hyes, hno⟩ := verify_inner sha256 pub sig d i hi 8 0 st (by omega) (by omega)
    have hbody : verifyOuter sha256 pub sig d i st =
        forRange (verifyBody sha256 pub sig (d ⟨i, hi⟩)) 0 8 st := by
      simp only [verifyOuter, dif_pos hi]
    by_cases h0 : ∀ t, t < 8 → okAt sha256 d pub sig (8 * i + t)
    · obtain ⟨st1, h1, hk1, hv1⟩ := hyes (fun t ht => by simpa using h0 t ht)
      obtain ⟨ihyes, ihno⟩ := ih (i + 1) st1 (by omega) (by omega)
      rw [forRange_succ_next _ _ _ _ _ (hbody.trans h1)]
      constructor
      · intro hall
        obtain ⟨st2, h2, hk2, hv2⟩ := ihyes (fun t ht => by
          have := hall (8 + t) (by omega)
          have e : 8 * i + (8 + t) = 8 * (i + 1) + t := by omega
          rw [e] at this
          exact this)
        exact ⟨st2, h2, by rw [hk2]; omega, fun _ => hv2 (Or.inr (hv1 (Or.inl (by omega))))⟩
      · rintro ⟨t, ht, hbad⟩
        apply ihno
        by_cases ht8 : t < 8
        · exact absurd (h0 t ht8) hbad
        · refine ⟨t - 8, by omega, ?_⟩
          have e : 8 * i + t = 8 * (i + 1) + (t - 8) := by omega
          rw [e] at hbad
          exact hbad
    · constructor
      · intro hall
        exact absurd (fun t ht => hall t (by omega)) h0
      · intro _
        apply forRange_succ_ret
        rw [hbody]
        apply hno
        by_contra hcon
        apply h0
        intro t ht
        by_contra hbad
        exact hcon ⟨t, ht, by simpa using hbad⟩

/-- What `Verify` computes: it never panics and returns the conjunction of the 256 position
checks. -/
theorem Verify_eq (sha256 : Bytes → Block) (msg : Message) (pub : PublicKey) (sig : Signature) :
    Verify sha256 msg pub sig =
      some (decide (∀ k : Fin 256, positionOk sha256 (sha256 msg.slice) pub sig k)) := by
  obtain ⟨hyes, hno⟩ := verify_outer sha256 pub sig (sha256 msg.slice) 32 0
    ⟨0, zeroBlocks, zeroBlocks, false⟩ (by omega) rfl
  unfold Verify
  by_cases hall : ∀ k : Fin 256, positionOk sha256 (sha256 msg.slice) pub sig k
  · obtain ⟨st, h, _, hv⟩ := hyes (fun t _ ht => by
      have := hall ⟨t, by omega⟩
      simpa using this)
    simp only [h, hv (Or.inl (by omega)), decide_eq_true hall]
  · have hex : ∃ t, t < 8 * 32 ∧ ¬ okAt sha256 (sha256 msg.slice) pub sig (8 * 0 + t) := by
      by_contra hcon
      apply hall
      intro k
      by_contra hbad
      apply hcon
      refine ⟨k.val, by omega, fun h => hbad ?_⟩
      have := h (by omega)
      simpa using this
    simp only [hno hex, decide_eq_false hall]


/-! ## The hex codec -/

set_option maxRecDepth 100000 in
theorem fromHexChar_hexDigit_hi :
    ∀ v : Byte, fromHexChar (hexDigit (v.val >>> 4)) = some (v.val >>> 4) := by
  decide

set_option maxRecDepth 100000 in
theorem fromHexChar_hexDigit_lo :
    ∀ v : Byte, fromHexChar (hexDigit (v.val &&& 0x0f)) = some (v.val &&& 0x0f) := by
  decide

set_option maxRecDepth 100000 in
theorem packNibbles_split : ∀ v : Byte, packNibbles (v.val >>> 4) (v.val &&& 0x0f) = v := by
  decide

theorem EncodeToString_length (bs : Bytes) : (EncodeToString bs).length = 2 * bs.length := by
  induction bs with
  | nil => rfl
  | cons v rest ih =>
    simp only [EncodeToString, List.length_cons, ih]
    omega

theorem EncodeToString_append (a b : Bytes) :
    EncodeToString (a ++ b) = EncodeToString a ++ EncodeToString b := by
  induction a with
  | nil => rfl
  | cons v rest ih => simp only [List.cons_append, EncodeToString, List.append_eq, ih]

theorem slice_length (b : Block) : b.slice.length = 32 := by
  simp only [Block.slice, List.length_ofFn]

theorem ToHex_eq_encode (b : Block) : b.ToHex = EncodeToString b.slice := by
  unfold Block.ToHex Sprintf064x List.leftpad
  rw [EncodeToString_length, slice_length]
  exact List.nil_append _

theorem blockToHex_length (b : Block) : b.ToHex.length = 64 := by
  rw [ToHex_eq_encode, EncodeToString_length, slice_length]

theorem decodeLoop_encode (bs : Bytes) :
    ∀ dst : Array Byte, decodeLoop dst (EncodeToString bs) = Except.ok (dst.toList ++ bs) := by
  induction bs with
  | nil =>
    intro dst
    simp [EncodeToString, decodeLoop]
  | cons v rest ih =>
    intro dst
    simp only [EncodeToString, decodeLoop, fromHexChar_hexDigit_hi, fromHexChar_hexDigit_lo,
      packNibbles_split, ih]
    simp

theorem DecodeString_encode (bs : Bytes) : DecodeString (EncodeToString bs) = Except.ok bs := by
  unfold DecodeString
  rw [decodeLoop_encode]
  exact congrArg Except.ok (List.nil_append bs)

theorem BlockFromByteSlice_slice (b : Block) : BlockFromByteSlice b.slice = b := by
  funext i
  have h : i.val < b.slice.length := by
    rw [slice_length]
    exact i.isLt
  unfold BlockFromByteSlice
  rw [dif_pos h]
  simp only [Block.slice, List.get_eq_getElem, List.getElem_ofFn]

/-! ## Concatenations of equal-length pieces -/

theorem flatMap_drop_take {α β : Type} (g : α → List β) (m : Nat)
    (hg : ∀ a, (g a).length = m) :
    ∀ (L : List α) (i : Nat) (hi : i < L.length),
      ((L.flatMap g).drop (m * i)).take m = g (L.get ⟨i, hi⟩) := by
  intro L
  induction L with
  | nil =>
    intro i hi
    exact absurd hi (Nat.not_lt_zero _)
  | cons a t ih =>
    intro i hi
    cases i with
    | zero =>
      simp only [List.flatMap_cons, Nat.mul_zero, List.drop_zero, List.get_cons_zero]
      rw [← hg a]
      exact List.take_left _ _
    | succ i =>
      have e : m * (i + 1) = (g a).length + m * i := by
        rw [hg a]
        ring
      simp only [List.flatMap_cons, e, List.drop_append, List.get_cons_succ]
      exact ih i (by simpa using hi)

theorem flatMap_length_const {α β : Type} (g : α → List β) (m : Nat)
    (hg : ∀ a, (g a).length = m) (L : List α) : (L.flatMap g).length = m * L.length := by
  induction L with
  | nil => rfl
  | cons a t ih =>
    simp only [List.flatMap_cons, List.length_append, List.length_cons, hg a, ih]
    ring

theorem foldl_append_ToHex (L : List Block) :
    ∀ s : Bytes, L.foldl (fun acc b => acc ++ b.ToHex) s = s ++ L.flatMap Block.ToHex := by
  induction L with
  | nil =>
    intro s
    simp
  | cons a t ih =>
    intro s
    simp only [List.foldl_cons, ih, List.flatMap_cons, List.append_assoc]

theorem flatMap_ToHex_eq_encode (L : List Block) :
    L.flatMap Block.ToHex = EncodeToString (L.flatMap Block.slice) := by
  induction L with
  | nil => rfl
  | cons a t ih =>
    simp only [List.flatMap_cons, EncodeToString_append, ih, ToHex_eq_encode]

theorem pubkeyBlocks_length (p : PublicKey) : p.blocks.length = 512 := by
  simp only [PublicKey.blocks, List.length_append, List.length_ofFn]

theorem appendHex_eq (s : Bytes) (blocks : Fin 256 → Block) :
    appendHex s blocks = s ++ (List.ofFn blocks).flatMap Block.ToHex :=
  foldl_append_ToHex (List.ofFn blocks) s

theorem pubkeyToHex_eq (p : PublicKey) : p.ToHex = p.blocks.flatMap Block.ToHex := by
  unfold PublicKey.ToHex PublicKey.blocks
  rw [appendHex_eq, appendHex_eq, List.nil_append, List.flatMap_append]

theorem sigToHex_eq (sig : Signature) :
    sig.ToHex = (List.ofFn sig.Preimage).flatMap Block.ToHex := by
  unfold Signature.ToHex
  rw [appendHex_eq, List.nil_append]

theorem get_ofFn_append_left {α : Type} {n m : Nat} (f : Fin n → α) (g : Fin m → α)
    (i : Fin n) (h : i.val < (List.ofFn f ++ List.ofFn g).length) :
    (List.ofFn f ++ List.ofFn g).get ⟨i.val, h⟩ = f i := by
  have h1 : i.val < (List.ofFn f).length := by
    rw [List.length_ofFn]
    exact i.isLt
  rw [List.get_eq_getElem, List.getElem_append_left h1, List.getElem_ofFn]

theorem get_ofFn_append_right {α : Type} {n m : Nat} (f : Fin n → α) (g : Fin m → α)
    (i : Fin m) (h : n + i.val < (List.ofFn f ++ List.ofFn g).length) :
    (List.ofFn f ++ List.ofFn g).get ⟨n + i.val, h⟩ = g i := by
  have h1 : (List.ofFn f).length ≤ n + i.val := by
    rw [List.length_ofFn]
    omega
  rw [List.get_eq_getElem, List.getElem_append_right h1, List.getElem_ofFn]
  congr 1
  apply Fin.ext
  simp only [List.length_ofFn]
  omega

theorem get_ofFn {α : Type} {n : Nat} (f : Fin n → α) (i : Fin n)
    (h : i.val < (List.ofFn f).length) : (List.ofFn f).get ⟨i.val, h⟩ = f i := by
  rw [List.get_eq_getElem, List.getElem_ofFn]

theorem pubkeyBlocks_get_zero (p : PublicKey) (i : Fin 256) (h : i.val < p.blocks.length) :
    p.blocks.get ⟨i.val, h⟩ = p.ZeroHash i :=
  get_ofFn_append_left p.ZeroHash p.OneHash i h

theorem pubkeyBlocks_get_one (p : PublicKey) (i : Fin 256)
    (h : 256 + i.val < p.blocks.length) :
    p.blocks.get ⟨256 + i.val, h⟩ = p.OneHash i :=
  get_ofFn_append_right p.ZeroHash p.OneHash i h

/-! ## The block-reading loop of the decoders -/

theorem readFold {n : Nat} :
    ∀ (l : List (Fin n)), l.Nodup → ∀ (buf : Bytes) (arr : Fin n → Block),
      l.foldl
        (fun st i => ((BufferNext st.1 32).2,
          Function.update st.2 i (BlockFromByteSlice (BufferNext st.1 32).1)))
        (buf, arr) =
      (buf.drop (32 * l.length),
        fun i => if i ∈ l then BlockFromByteSlice ((buf.drop (32 * l.indexOf i)).take 32)
          else arr i) := by
  intro l
  induction l with
  | nil =>
    intro _ buf arr
    simp
  | cons a t ih =>
    intro hnd buf arr
    have hat : a ∉ t := (List.nodup_cons.mp hnd).1
    rw [List.foldl_cons, ih (List.nodup_cons.mp hnd).2]
    simp only [BufferNext, List.drop_drop, List.length_cons]
    refine Prod.ext ?_ ?_
    · simp only
      congr 1
      omega
    · simp only
      funext i
      by_cases hia : i = a
      · subst hia
        simp [hat]
      · have hne : a ≠ i := fun h => hia h.symm
        simp only [List.mem_cons, hia, false_or, Function.update_noteq hia,
          List.indexOf_cons_ne _ hne]
        by_cases hit : i ∈ t
        · simp only [hit, if_true]
          have hx : ∀ x y : Nat, x = y →
              BlockFromByteSlice ((buf.drop x).take 32) =
                BlockFromByteSlice ((buf.drop y).take 32) := fun _ _ h => by rw [h]
          apply hx
          omega
        · simp only [hit, if_false]

theorem readBlocks_eq (buf : Bytes) (arr : Fin 256 → Block) :
    readBlocks buf arr =
      (buf.drop (32 * 256), fun i => BlockFromByteSlice ((buf.drop (32 * i.val)).take 32)) := by
  unfold readBlocks
  rw [readFold _ (List.nodup_finRange 256)]
  simp only [List.length_finRange, List.mem_finRange, if_true, List.indexOf_finRange]

/-! ## The three outcomes of the decoders -/

theorem HexToPubkey_of_length (s : Bytes) (h : s.length ≠ 32768) :
    HexToPubkey s = Except.error (DecodeError.length s.length 32768) := by
  unfold HexToPubkey
  simp only [Nat.reduceMul, if_pos h]

theorem HexToPubkey_of_hex (s : Bytes) (e : HexError) (h : s.length = 32768)
    (hd : DecodeString s = Except.error e) :
    HexToPubkey s = Except.error (DecodeError.hex e) := by
  unfold HexToPubkey
  simp only [Nat.reduceMul, h, ne_eq, not_true_eq_false, if_false, hd]

theorem HexToPubkey_of_decode (s bts : Bytes) (h : s.length = 32768)
    (hd : DecodeString s = Except.ok bts) :
    HexToPubkey s = Except.ok
      ⟨fun i => BlockFromByteSlice ((bts.drop (32 * i.val)).take 32),
        fun i => BlockFromByteSlice ((bts.drop (32 * (256 + i.val))).take 32)⟩ := by
  unfold HexToPubkey
  simp only [Nat.reduceMul, h, ne_eq, not_true_eq_false, if_false, hd, readBlocks_eq,
    List.drop_drop, Nat.mul_add]

theorem HexToSignature_of_length (s : Bytes) (h : s.length ≠ 16384) :
    HexToSignature s = Except.error (DecodeError.length s.length 16384) := by
  unfold HexToSignature
  simp only [Nat.reduceMul, if_pos h]

theorem HexToSignature_of_hex (s : Bytes) (e : HexError) (h : s.length = 16384)
    (hd : DecodeString s = Except.error e) :
    HexToSignature s = Except.error (DecodeError.hex e) := by
  unfold HexToSignature
  simp only [Nat.reduceMul, h, ne_eq, not_true_eq_false, if_false, hd]

theorem HexToSignature_of_decode (s bts : Bytes) (h : s.length = 16384)
    (hd : DecodeString s = Except.ok bts) :
    HexToSignature s = Except.ok
      ⟨fun i => BlockFromByteSlice ((bts.drop (32 * i.val)).take 32)⟩ := by
  unfold HexToSignature
  simp only [Nat.reduceMul, h, ne_eq, not_true_eq_false, if_false, hd, readBlocks_eq]

/-! ## Round trips -/

theorem pubkeyToHex_length (p : PublicKey) : p.ToHex.length = 32768 := by
  rw [pubkeyToHex_eq, flatMap_length_const _ 64 blockToHex_length, pubkeyBlocks_length]

theorem sigToHex_length (sig : Signature) : sig.ToHex.length = 16384 := by
  rw [sigToHex_eq, flatMap_length_const _ 64 blockToHex_length, List.length_ofFn]

theorem HexToPubkey_ToHex (p : PublicKey) : HexToPubkey p.ToHex = Except.ok p := by
  have hd : DecodeString p.ToHex = Except.ok (p.blocks.flatMap Block.slice) := by
    rw [pubkeyToHex_eq, flatMap_ToHex_eq_encode, DecodeString_encode]
  rw [HexToPubkey_of_decode _ _ (pubkeyToHex_length p) hd]
  have hz : ∀ i : Fin 256, BlockFromByteSlice
      (((p.blocks.flatMap Block.slice).drop (32 * i.val)).take 32) = p.ZeroHash i := by
    intro i
    have hi : i.val < p.blocks.length := by
      rw [pubkeyBlocks_length]
      omega
    rw [flatMap_drop_take _ 32 slice_length _ _ hi, BlockFromByteSlice_slice,
      pubkeyBlocks_get_zero]
  have ho : ∀ i : Fin 256, BlockFromByteSlice
      (((p.blocks.flatMap Block.slice).drop (32 * (256 + i.val))).take 32) = p.OneHash i := by
    intro i
    have hi : 256 + i.val < p.blocks.length := by
      rw [pubkeyBlocks_length]
      omega
    rw [flatMap_drop_take _ 32 slice_length _ _ hi, BlockFromByteSlice_slice,
      pubkeyBlocks_get_one]
  simp only [hz, ho]

theorem HexToSignature_ToHex (sig : Signature) : HexToSignature sig.ToHex = Except.ok sig := by
  have hd : DecodeString sig.ToHex =
      Except.ok ((List.ofFn sig.Preimage).flatMap Block.slice) := by
    rw [sigToHex_eq, flatMap_ToHex_eq_encode, DecodeString_encode]
  rw [HexToSignature_of_decode _ _ (sigToHex_length sig) hd]
  have hz : ∀ i : Fin 256, BlockFromByteSlice
      ((((List.ofFn sig.Preimage).flatMap Block.slice).drop (32 * i.val)).take 32) =
        sig.Preimage i := by
    intro i
    have hi : i.val < (List.ofFn sig.Preimage).length := by
      rw [List.length_ofFn]
      exact i.isLt
    rw [flatMap_drop_take _ 32 slice_length _ _ hi, BlockFromByteSlice_slice, get_ofFn]
  simp only [hz]

/-! ## What `hex.DecodeString` accepts and returns -/

theorem fromHexChar_of_isHexDigit (c : Byte) (h : isHexDigit c) :
    fromHexChar c = some (hexValue c) := by
  unfold hexValue fromHexChar isHexDigit at *
  split_ifs with h1 h2 h3
  · rfl
  · rfl
  · rfl
  · omega

theorem fromHexChar_of_not_isHexDigit (c : Byte) (h : ¬ isHexDigit c) :
    fromHexChar c = none := by
  unfold fromHexChar isHexDigit at *
  split_ifs with h1 h2 h3
  · exact absurd (Or.inl h1) h
  · exact absurd (Or.inr (Or.inl h2)) h
  · exact absurd (Or.inr (Or.inr h3)) h
  · rfl

theorem decodeLoop_ok : ∀ (s : Bytes) (dst : Array Byte),
    (∀ c ∈ s, isHexDigit c) → s.length % 2 = 0 →
      decodeLoop dst s = Except.ok (dst.toList ++ decodePairs s)
  | [], dst, _, _ => by simp [decodeLoop, decodePairs]
  | [_], _, _, h => by simp at h
  | p :: q :: rest, dst, hall, hlen => by
    have hp : isHexDigit p := hall p (by simp)
    have hq : isHexDigit q := hall q (by simp)
    have ih := decodeLoop_ok rest (dst.push (packNibbles (hexValue p) (hexValue q)))
      (fun c hc => hall c (by simp [hc])) (by simp only [List.length_cons] at hlen; omega)
    simp only [decodeLoop, fromHexChar_of_isHexDigit p hp, fromHexChar_of_isHexDigit q hq, ih,
      decodePairs]
    simp

theorem decodeLoop_error : ∀ (s : Bytes) (dst : Array Byte),
    ((∃ c ∈ s, ¬ isHexDigit c) ∨ s.length % 2 = 1) →
      ∃ e, decodeLoop dst s = Except.error e
  | [], _, h => by simp at h
  | [p], dst, _ => by
    unfold decodeLoop
    cases fromHexChar p with
    | none => exact ⟨_, rfl⟩
    | some a => exact ⟨_, rfl⟩
  | p :: q :: rest, dst, h => by
    by_cases hp : isHexDigit p
    · by_cases hq : isHexDigit q
      · have h' : (∃ c ∈ rest, ¬ isHexDigit c) ∨ rest.length % 2 = 1 := by
          rcases h with ⟨c, hc, hbad⟩ | hlen
          · simp only [List.mem_cons] at hc
            rcases hc with rfl | rfl | hc
            · exact absurd hp hbad
            · exact absurd hq hbad
            · exact Or.inl ⟨c, hc, hbad⟩
          · right
            simp only [List.length_cons] at hlen
            omega
        obtain ⟨e, he⟩ := decodeLoop_error rest
          (dst.push (packNibbles (hexValue p) (hexValue q))) h'
        refine ⟨e, ?_⟩
        simp only [decodeLoop, fromHexChar_of_isHexDigit p hp, fromHexChar_of_isHexDigit q hq, he]
      · refine ⟨HexError.InvalidByteError q, ?_⟩
        simp only [decodeLoop, fromHexChar_of_isHexDigit p hp,
          fromHexChar_of_not_isHexDigit q hq]
    · refine ⟨HexError.InvalidByteError p, ?_⟩
      simp only [decodeLoop, fromHexChar_of_not_isHexDigit p hp]

theorem DecodeString_ok (s : Bytes) (hall : ∀ c ∈ s, isHexDigit c) (hlen : s.length % 2 = 0) :
    DecodeString s = Except.ok (decodePairs s) := by
  unfold DecodeString
  rw [decodeLoop_ok s _ hall hlen]
  exact congrArg Except.ok (List.nil_append _)

theorem DecodeString_error_iff (s : Bytes) :
    (∃ e, DecodeString s = Except.error e) ↔
      ((∃ c ∈ s, ¬ isHexDigit c) ∨ s.length % 2 = 1) := by
  constructor
  · rintro ⟨e, he⟩
    by_contra hcon
    have hall : ∀ c ∈ s, isHexDigit c := by
      intro c hc
      by_contra hbad
      exact hcon (Or.inl ⟨c, hc, hbad⟩)
    have hlen : s.length % 2 = 0 := by
      have : ¬ s.length % 2 = 1 := fun h => hcon (Or.inr h)
      omega
    rw [DecodeString_ok s hall hlen] at he
    cases he
  · intro h
    exact decodeLoop_error s _ h

theorem decodePairs_length : ∀ s : Bytes, (decodePairs s).length = s.length / 2
  | [] => rfl
  | [_] => by simp [decodePairs]
  | _ :: _ :: rest => by
    simp only [decodePairs, List.length_cons, decodePairs_length rest]
    omega

theorem decodePairs_drop : ∀ (n : Nat) (s : Bytes),
    decodePairs (s.drop (2 * n)) = (decodePairs s).drop n
  | 0, s => by simp
  | n + 1, [] => by simp [decodePairs]
  | n + 1, [_] => by simp [decodePairs]
  | n + 1, _ :: _ :: rest => by
    have e : 2 * (n + 1) = 2 * n + 1 + 1 := by omega
    simp only [e, List.drop_succ_cons, decodePairs, decodePairs_drop n rest]

theorem decodePairs_take : ∀ (n : Nat) (s : Bytes),
    decodePairs (s.take (2 * n)) = (decodePairs s).take n
  | 0, s => by simp [decodePairs]
  | n + 1, [] => by simp [decodePairs]
  | n + 1, [_] => by
    have e : 2 * (n + 1) = 2 * n + 1 + 1 := by omega
    simp [e, decodePairs]
  | n + 1, _ :: _ :: rest => by
    have e : 2 * (n + 1) = 2 * n + 1 + 1 := by omega
    rw [e]
    simp only [List.take_succ_cons, decodePairs]
    exact congrArg (List.cons _) (decodePairs_take n rest)

theorem slice_BlockFromByteSlice (bs : Bytes) (h : bs.length = 32) :
    (BlockFromByteSlice bs).slice = bs := by
  apply List.ext_getElem
  · rw [slice_length, h]
  · intro n h1 h2
    have hn : n < bs.length := h2
    simp only [Block.slice, List.getElem_ofFn, BlockFromByteSlice, dif_pos hn,
      List.get_eq_getElem]

/-- Decoding the 64 characters of block number `i` of an accepted string gives block `i` of the
decoded bytes. -/
theorem DecodeString_chunk (s : Bytes) (hall : ∀ c ∈ s, isHexDigit c) (i : Nat)
    (hlen : 64 * i + 64 ≤ s.length) :
    DecodeString ((s.drop (64 * i)).take 64) =
      Except.ok (BlockFromByteSlice (((decodePairs s).drop (32 * i)).take 32)).slice := by
  have hall' : ∀ c ∈ (s.drop (64 * i)).take 64, isHexDigit c :=
    fun c hc => hall c (List.mem_of_mem_drop (List.mem_of_mem_take hc))
  have hl : ((s.drop (64 * i)).take 64).length = 64 := by
    rw [List.length_take, List.length_drop]
    omega
  rw [DecodeString_ok _ hall' (by rw [hl])]
  have e1 : (64 : Nat) = 2 * 32 := rfl
  have e2 : 64 * i = 2 * (32 * i) := by omega
  have hd : decodePairs ((s.drop (64 * i)).take 64) =
      ((decodePairs s).drop (32 * i)).take 32 := by
    rw [e2, e1, decodePairs_take, decodePairs_drop]
  rw [hd, slice_BlockFromByteSlice]
  rw [List.length_take, List.length_drop, decodePairs_length]
  omega

/-! ## The characters written by the encoder -/

set_option maxRecDepth 100000 in
theorem hexDigit_lower : ∀ v : Byte,
    isLowerHexDigit (hexDigit (v.val >>> 4)) ∧ isLowerHexDigit (hexDigit (v.val &&& 0x0f)) := by
  decide

set_option maxRecDepth 100000 in
theorem nibbles_eq : ∀ v : Byte, v.val >>> 4 = v.val / 16 ∧ v.val &&& 0x0f = v.val % 16 := by
  decide

theorem EncodeToString_lower (bs : Bytes) : ∀ c ∈ EncodeToString bs, isLowerHexDigit c := by
  induction bs with
  | nil =>
    intro c hc
    simp [EncodeToString] at hc
  | cons v rest ih =>
    intro c hc
    simp only [EncodeToString, List.mem_cons] at hc
    rcases hc with rfl | rfl | hc
    · exact (hexDigit_lower v).1
    · exact (hexDigit_lower v).2
    · exact ih c hc

theorem EncodeToString_getElem? : ∀ (bs : Bytes) (t : Nat) (h : t < bs.length),
    (EncodeToString bs)[2 * t]? = some (hexDigit ((bs.get ⟨t, h⟩).val / 16)) ∧
    (EncodeToString bs)[2 * t + 1]? = some (hexDigit ((bs.get ⟨t, h⟩).val % 16))
  | [], t, h => absurd h (Nat.not_lt_zero _)
  | v :: rest, 0, _ => by
    simp only [EncodeToString, (nibbles_eq v).1, (nibbles_eq v).2]
    constructor <;> simp
  | v :: rest, t + 1, h => by
    have ih := EncodeToString_getElem? rest t (by simpa using h)
    have e : 2 * (t + 1) = 2 * t + 1 + 1 := by omega
    simp only [EncodeToString, e, List.getElem?_cons_succ, List.get_cons_succ]
    exact ih

/-- The two outcomes of `hex.DecodeString` on a string of even length. -/
theorem DecodeString_even (s : Bytes) (hlen : s.length % 2 = 0) :
    (DecodeString s = Except.ok (decodePairs s) ∧ ∀ c ∈ s, isHexDigit c) ∨
    ((∃ e, DecodeString s = Except.error e) ∧ ∃ c ∈ s, ¬ isHexDigit c) := by
  by_cases hall : ∀ c ∈ s, isHexDigit c
  · exact Or.inl ⟨DecodeString_ok s hall hlen, hall⟩
  · have hbad : ∃ c ∈ s, ¬ isHexDigit c := by
      by_contra hcon
      apply hall
      intro c hc
      by_contra hc'
      exact hcon ⟨c, hc, hc'⟩
    exact Or.inr ⟨(DecodeString_error_iff s).mpr (Or.inl hbad), hbad⟩

/-! ## The loop of `GenerateKey` -/

theorem generateBody_next (sha256 : Bytes → Block) (rng : RandSource) (x : Nat) (hx : x < 256)
    (st : GenState) (hr : st.reads = 2 * x) (hinv : GenInv sha256 rng x st) (zero one : Block)
    (h0 : rng (2 * x) = some zero) (h1 : rng (2 * x + 1) = some one) :
    ∃ st', generateBody sha256 rng x st = Flow.next st' ∧ st'.reads = 2 * (x + 1) ∧
      GenInv sha256 rng (x + 1) st' := by
  refine ⟨⟨st.reads + 1 + 1,
    ⟨Function.update st.sec.ZeroPre ⟨x, hx⟩ zero, Function.update st.sec.OnePre ⟨x, hx⟩ one⟩,
    ⟨Function.update st.pub.ZeroHash ⟨x, hx⟩ (sha256 zero.slice),
      Function.update st.pub.OneHash ⟨x, hx⟩ (sha256 one.slice)⟩⟩, ?_, ?_, ?_⟩
  · unfold generateBody Generate256BitNumber
    rw [dif_pos hx]
    rw [← hr] at h0 h1
    simp only [h0, h1, Function.update_same]
  · simp only [hr]
    omega
  · intro i hi
    by_cases hix : i = ⟨x, hx⟩
    · subst hix
      refine ⟨?_, ?_, ?_, ?_⟩
      · simpa only [Function.update_same] using h0
      · simpa only [Function.update_same] using h1
      · simp only [Function.update_same]
      · simp only [Function.update_same]
    · have hlt : i.val < x := by
        have : i.val ≠ x := fun h => hix (Fin.ext h)
        omega
      simp only [Function.update_noteq hix]
      exact hinv i hlt

theorem generateBody_panic (sha256 : Bytes → Block) (rng : RandSource) (x : Nat) (hx : x < 256)
    (st : GenState) (hr : st.reads = 2 * x)
    (h : rng (2 * x) = none ∨ rng (2 * x + 1) = none) :
    generateBody sha256 rng x st = Flow.panic := by
  unfold generateBody Generate256BitNumber
  rw [dif_pos hx, hr]
  cases h0 : rng (2 * x) with
  | none => rfl
  | some zero =>
    rcases h with h | h
    · rw [h0] at h
      cases h
    · simp only [h]

theorem generate_loop (sha256 : Bytes → Block) (rng : RandSource) :
    ∀ (n x : Nat) (st : GenState), x + n ≤ 256 → st.reads = 2 * x → GenInv sha256 rng x st →
      ((∀ t, 2 * x ≤ t → t < 2 * (x + n) → ∃ b, rng t = some b) →
        ∃ st', forRange (generateBody sha256 rng) x n st = Flow.next st' ∧
          st'.reads = 2 * (x + n) ∧ GenInv sha256 rng (x + n) st') ∧
      ((∃ t, 2 * x ≤ t ∧ t < 2 * (x + n) ∧ rng t = none) →
        forRange (generateBody sha256 rng) x n st = Flow.panic) := by
  intro n
  induction n with
  | zero =>
    intro x st _ hr hinv
    refine ⟨fun _ => ⟨st, rfl, hr, hinv⟩, fun ⟨t, h1, h2, _⟩ => ?_⟩
    omega
  | succ n ih =>
    intro x st hxn hr hinv
    have hx : x < 256 := by omega
    cases h0 : rng (2 * x) with
    | none =>
      have hp := generateBody_panic sha256 rng x hx st hr (Or.inl h0)
      refine ⟨fun hall => ?_, fun _ => ?_⟩
      · obtain ⟨b, hb⟩ := hall (2 * x) (by omega) (by omega)
        rw [h0] at hb
        cases hb
      · simp only [forRange, hp]
    | some zero =>
      cases h1 : rng (2 * x + 1) with
      | none =>
        have hp := generateBody_panic sha256 rng x hx st hr (Or.inr h1)
        refine ⟨fun hall => ?_, fun _ => ?_⟩
        · obtain ⟨b, hb⟩ := hall (2 * x + 1) (by omega) (by omega)
          rw [h1] at hb
          cases hb
        · simp only [forRange, hp]
      | some one =>
        obtain ⟨st1, hs1, hr1, hinv1⟩ :=
          generateBody_next sha256 rng x hx st hr hinv zero one h0 h1
        obtain ⟨ihyes, ihno⟩ := ih (x + 1) st1 (by omega) hr1 hinv1
        rw [forRange_succ_next _ _ _ _ _ hs1]
        have e : x + 1 + n = x + (n + 1) := by omega
        rw [e] at ihyes ihno
        refine ⟨fun hall => ihyes (fun t ht1 ht2 => hall t (by omega) ht2), ?_⟩
        rintro ⟨t, ht1, ht2, hbad⟩
        apply ihno
        refine ⟨t, ?_, ht2, hbad⟩
        by_contra hcon
        have : t = 2 * x ∨ t = 2 * x + 1 := by omega
        rcases this with rfl | rfl
        · rw [h0] at hbad
          cases hbad
        · rw [h1] at hbad
          cases hbad

/-- When the first 512 reads succeed the loop of `GenerateKey` runs to its end, having made
exactly 512 reads. -/
theorem generateLoop_next (sha256 : Bytes → Block) (rng : RandSource)
    (h : ∀ t, t < 512 → ∃ b, rng t = some b) :
    ∃ st, generateLoop sha256 rng = Flow.next st ∧ st.reads = 512 ∧
      GenInv sha256 rng 256 st := by
  obtain ⟨st, h1, h2, h3⟩ := (generate_loop sha256 rng 256 0
    ⟨0, ⟨zeroBlocks, zeroBlocks⟩, ⟨zeroBlocks, zeroBlocks⟩⟩ (by omega) rfl
    (fun i hi => absurd hi (Nat.not_lt_zero _))).1 (fun t _ ht => h t (by omega))
  exact ⟨st, h1, by omega, h3⟩

/-- When one of the first 512 reads fails `GenerateKey` panics. -/
theorem generateLoop_panic (sha256 : Bytes → Block) (rng : RandSource)
    (h : ∃ t, t < 512 ∧ rng t = none) :
    generateLoop sha256 rng = Flow.panic := by
  obtain ⟨t, ht, hbad⟩ := h
  exact (generate_loop sha256 rng 256 0
    ⟨0, ⟨zeroBlocks, zeroBlocks⟩, ⟨zeroBlocks, zeroBlocks⟩⟩ (by omega) rfl
    (fun i hi => absurd hi (Nat.not_lt_zero _))).2 ⟨t, by omega, by omega, hbad⟩

theorem all_or_none (rng : RandSource) (n : Nat) :
    (∀ t, t < n → ∃ b, rng t = some b) ∨ (∃ t, t < n ∧ rng t = none) := by
  by_cases h : ∃ t, t < n ∧ rng t = none
  · exact Or.inr h
  · left
    intro t ht
    cases hr : rng t with
    | none => exact absurd ⟨t, ht, hr⟩ h
    | some b => exact ⟨b, rfl⟩

/-- The outcomes of `GenerateKey`: either it returns keys satisfying the invariant with a nil
error after 512 successful reads, or a read failed and it panics. -/
theorem GenerateKey_outcome (sha256 : Bytes → Block) (rng : RandSource) :
    ((∀ t, t < 512 → ∃ b, rng t = some b) ∧
      ∃ st, generateLoop sha256 rng = Flow.next st ∧ st.reads = 512 ∧
        GenInv sha256 rng 256 st ∧ GenerateKey sha256 rng = some (st.sec, st.pub, none)) ∨
    ((∃ t, t < 512 ∧ rng t = none) ∧ GenerateKey sha256 rng = none) := by
  rcases all_or_none rng 512 with h | h
  · obtain ⟨st, h1, h2, h3⟩ := generateLoop_next sha256 rng h
    refine Or.inl ⟨h, st, h1, h2, h3, ?_⟩
    simp only [GenerateKey, h1]
  · refine Or.inr ⟨h, ?_⟩
    simp only [GenerateKey, generateLoop_panic sha256 rng h]


/-! ## `BlockFromByteSlice` on slices of any length -/

theorem BlockFromByteSlice_apply (bys : Bytes) (i : Fin 32) :
    BlockFromByteSlice bys i = bys.getD i.val 0 := by
  unfold BlockFromByteSlice
  by_cases h : i.val < bys.length
  · rw [dif_pos h, List.getD_eq_getElem _ _ h, List.get_eq_getElem]
  · rw [dif_neg h, List.getD_eq_default _ _ (by omega)]

theorem slice_BlockFromByteSlice_pad (bys : Bytes) :
    (BlockFromByteSlice bys).slice = bys.take 32 ++ List.replicate (32 - bys.length) 0 := by
  apply List.ext_getElem
  · rw [slice_length, List.length_append, List.length_take, List.length_replicate]
    omega
  · intro n h1 h2
    rw [slice_length] at h1
    simp only [Block.slice, List.getElem_ofFn]
    rw [BlockFromByteSlice_apply]
    show bys.getD n 0 = _
    by_cases hn : n < bys.length
    · rw [List.getD_eq_getElem _ _ hn, List.getElem_append_left (by
        rw [List.length_take]
        omega), List.getElem_take]
    · rw [List.getD_eq_default _ _ (by omega), List.getElem_append_right (by
        rw [List.length_take]
        omega), List.getElem_replicate]

/-! ## The keys generated from a concrete random source -/

theorem countSource_some (t : Nat) : ∃ b, countSource t = some b := ⟨_, rfl⟩

theorem GenerateKey_eq_of_returns (sha256 : Bytes → Block) (rng : RandSource)
    (r : SecretKey × PublicKey × Option GoError) (h : GenerateKey sha256 rng = some r) :
    ∃ st, generateLoop sha256 rng = Flow.next st ∧ st.reads = 512 ∧
      GenInv sha256 rng 256 st ∧ r = (st.sec, st.pub, none) := by
  rcases GenerateKey_outcome sha256 rng with ⟨_, st, h1, h2, h3, h4⟩ | ⟨_, hp⟩
  · rw [h4] at h
    exact ⟨st, h1, h2, h3, (Option.some.inj h).symm⟩
  · rw [hp] at h
    cases h


/-! ## Decoding then encoding -/

set_option maxRecDepth 100000 in
theorem hexDigit_hexValue : ∀ c : Byte, isHexDigit c →
    hexValue c < 16 ∧ hexDigit (hexValue c) = toLowerHex c := by
  decide

set_option maxRecDepth 100000 in
theorem packNibbles_nibbles : ∀ a b : Fin 16,
    (packNibbles a.val b.val).val >>> 4 = a.val ∧
      (packNibbles a.val b.val).val &&& 0x0f = b.val := by
  decide

set_option maxRecDepth 100000 in
theorem toLowerHex_of_lower : ∀ c : Byte, isLowerHexDigit c → toLowerHex c = c := by
  decide

theorem encode_decodePairs : ∀ s : Bytes, (∀ c ∈ s, isHexDigit c) → s.length % 2 = 0 →
    EncodeToString (decodePairs s) = s.map toLowerHex
  | [], _, _ => rfl
  | [_], _, h => by simp at h
  | p :: q :: rest, hall, hlen => by
    have hp := hexDigit_hexValue p (hall p (by simp))
    have hq := hexDigit_hexValue q (hall q (by simp))
    have hn := packNibbles_nibbles ⟨hexValue p, hp.1⟩ ⟨hexValue q, hq.1⟩
    have ih := encode_decodePairs rest (fun c hc => hall c (by simp [hc]))
      (by simp only [List.length_cons] at hlen; omega)
    simp only at hn
    simp only [decodePairs, EncodeToString, hn.1, hn.2, hp.2, hq.2, ih, List.map_cons]

theorem flatMap_slice_chunks : ∀ (n : Nat) (bts : Bytes) (f : Fin n → Block),
    (∀ i : Fin n, f i = BlockFromByteSlice ((bts.drop (32 * i.val)).take 32)) →
    32 * n ≤ bts.length →
      (List.ofFn f).flatMap Block.slice = bts.take (32 * n)
  | 0, bts, f, _, _ => by simp
  | n + 1, bts, f, hf, hlen => by
    have ih := flatMap_slice_chunks n (bts.drop 32) (fun i => f i.succ)
      (fun i => by
        show f i.succ = _
        rw [hf i.succ, List.drop_drop]
        have e : 32 * i.succ.val = 32 + 32 * i.val := by
          simp only [Fin.val_succ]
          omega
        rw [e])
      (by rw [List.length_drop]; omega)
    have h0 : (f 0).slice = bts.take 32 := by
      rw [hf 0]
      simp only [Fin.val_zero, Nat.mul_zero, List.drop_zero]
      apply slice_BlockFromByteSlice
      rw [List.length_take]
      omega
    rw [List.ofFn_succ, List.flatMap_cons, ih, h0]
    have e : 32 * (n + 1) = 32 + 32 * n := by omega
    rw [e, List.take_add]

/-- The bytes of the blocks of a decoded key are the bytes spelled by the text. -/
theorem blocks_of_HexToPubkey (s : Bytes) (p : PublicKey) (h : HexToPubkey s = Except.ok p) :
    s.length = 32768 ∧ (∀ c ∈ s, isHexDigit c) ∧
      p.blocks.flatMap Block.slice = decodePairs s := by
  by_cases hlen : s.length = 32768
  · rcases DecodeString_even s (by rw [hlen]) with ⟨hd, hall⟩ | ⟨⟨e, he⟩, _⟩
    · refine ⟨hlen, hall, ?_⟩
      rw [HexToPubkey_of_decode s _ hlen hd] at h
      have hp := (Except.ok.inj h).symm
      have hl : (decodePairs s).length = 16384 := by
        rw [decodePairs_length, hlen]
      have hz := flatMap_slice_chunks 256 (decodePairs s) p.ZeroHash
        (fun i => by rw [hp]) (by omega)
      have ho := flatMap_slice_chunks 256 ((decodePairs s).drop (32 * 256)) p.OneHash
        (fun i => by
          rw [hp, List.drop_drop]
          have e : 32 * 256 + 32 * i.val = 32 * (256 + i.val) := by omega
          rw [e])
        (by rw [List.length_drop]; omega)
      unfold PublicKey.blocks
      rw [List.flatMap_append, hz, ho, ← List.take_add]
      exact List.take_of_length_le (by omega)
    · rw [HexToPubkey_of_hex s e hlen he] at h
      cases h
  · rw [HexToPubkey_of_length s hlen] at h
    cases h

theorem HexToPubkey_accepts (s : Bytes) (hlen : s.length = 32768)
    (hall : ∀ c ∈ s, isHexDigit c) : ∃ p, HexToPubkey s = Except.ok p :=
  ⟨_, HexToPubkey_of_decode s _ hlen (DecodeString_ok s hall (by rw [hlen]))⟩

theorem map_eq_self_of_forall {α : Type} (f : α → α) :
    ∀ l : List α, (∀ a ∈ l, f a = a) → l.map f = l
  | [], _ => rfl
  | a :: t, h => by
    rw [List.map_cons, h a (by simp), map_eq_self_of_forall f t (fun b hb => h b (by simp [hb]))]

/-! ## The running index of the bit loops -/

/-- One inner iteration of `Sign` writes the secret block selected by the tested bit at
position `k` of the signature, leaves every other position as it is, and increments `k`. -/
theorem signBody_writes (sec : SecretKey) (b : Byte) (j : Nat) (st : SignState)
    (h : st.k < 256) :
    signBody sec b j st =
      Flow.next ⟨st.k + 1, ⟨Function.update st.sig.Preimage ⟨st.k, h⟩
        (if bitSet b j then sec.OnePre ⟨st.k, h⟩ else sec.ZeroPre ⟨st.k, h⟩)⟩⟩ := by
  unfold signBody
  rw [dif_pos h]
  by_cases hb : bitSet b j = true
  · simp only [if_pos hb]
  · simp only [if_neg hb]

/-- The inner loop of `Sign` leaves the positions from `k` on as they were: zero. -/
theorem sign_inner_untouched (sec : SecretKey) (d : Block) (i : Nat) (hi : i < 32) :
    ∀ (n j : Nat) (st st' : SignState), j + n ≤ 8 → st.k = 8 * i + j →
      (∀ x : Fin 256, st.k ≤ x.val → st.sig.Preimage x = zeroBlock) →
      forRange (signBody sec (d ⟨i, hi⟩)) j n st = Flow.next st' →
      ∀ x : Fin 256, st'.k ≤ x.val → st'.sig.Preimage x = zeroBlock := by
  intro n
  induction n with
  | zero =>
    intro j st st' _ _ hz hrun
    rw [forRange_zero] at hrun
    cases hrun
    exact hz
  | succ n ih =>
    intro j st st' hjn hk hz hrun
    have hlt : st.k < 256 := by omega
    have hstep := signBody_writes sec (d ⟨i, hi⟩) j st hlt
    rw [forRange_succ_next _ _ _ _ _ hstep] at hrun
    refine ih (j + 1) _ st' (by omega) (by simp only [hk]; omega) ?_ hrun
    intro x hx
    have hne : x ≠ ⟨st.k, hlt⟩ := by
      intro hxe
      rw [hxe] at hx
      simp only at hx
      omega
    simp only [Function.update_noteq hne]
    exact hz x (by simp only at hx; omega)

/-- The outer loop of `Sign` leaves the positions from `k` on as they were: zero. -/
theorem sign_outer_untouched (sec : SecretKey) (d : Block) :
    ∀ (n i : Nat) (st st' : SignState), i + n ≤ 32 → st.k = 8 * i →
      SignInv sec d st →
      (∀ x : Fin 256, st.k ≤ x.val → st.sig.Preimage x = zeroBlock) →
      forRange (signOuter sec d) i n st = Flow.next st' →
      ∀ x : Fin 256, st'.k ≤ x.val → st'.sig.Preimage x = zeroBlock := by
  intro n
  induction n with
  | zero =>
    intro i st st' _ _ _ hz hrun
    rw [forRange_zero] at hrun
    cases hrun
    exact hz
  | succ n ih =>
    intro i st st' hin hk hinv hz hrun
    have hi : i < 32 := by omega
    obtain ⟨st1, h1, hk1, hinv1⟩ := sign_inner sec d i hi 8 0 st (by omega) (by omega) hinv
    have hz1 := sign_inner_untouched sec d i hi 8 0 st st1 (by omega) (by omega) hz h1
    have h1' : signOuter sec d i st = Flow.next st1 := by
      simp only [signOuter, dif_pos hi, h1]
    rw [forRange_succ_next _ _ _ _ _ h1'] at hrun
    exact ih (i + 1) st1 st' (by omega) (by omega) hinv1 hz1 hrun

/-- The state of `Sign` at the start of inner iteration `(i, j)`: the running index is
`8 * i + j`, the positions below it hold the selected secret blocks and the positions from it
on have not been written. -/
theorem sign_state_at (sec : SecretKey) (d : Block) (i j : Nat) (hi : i < 32) (hj : j < 8) :
    ∃ st0 st,
      forRange (signOuter sec d) 0 i ⟨0, ⟨zeroBlocks⟩⟩ = Flow.next st0 ∧
      forRange (signBody sec (d ⟨i, hi⟩)) 0 j st0 = Flow.next st ∧
      st.k = 8 * i + j ∧ st.k < 256 ∧
      (∀ x : Fin 256, x.val < st.k → st.sig.Preimage x = revealed sec d x) ∧
      (∀ x : Fin 256, st.k ≤ x.val → st.sig.Preimage x = zeroBlock) := by
  have hinit : SignInv sec d ⟨0, ⟨zeroBlocks⟩⟩ := fun x hx => absurd hx (Nat.not_lt_zero _)
  have hzinit : ∀ x : Fin 256, (⟨0, ⟨zeroBlocks⟩⟩ : SignState).k ≤ x.val →
      (⟨0, ⟨zeroBlocks⟩⟩ : SignState).sig.Preimage x = zeroBlock := fun _ _ => rfl
  obtain ⟨st0, h0, hk0, hinv0⟩ := sign_outer sec d i 0 ⟨0, ⟨zeroBlocks⟩⟩ (by omega) rfl hinit
  have hz0 := sign_outer_untouched sec d i 0 _ st0 (by omega) rfl hinit hzinit h0
  obtain ⟨st, h1, hk1, hinv1⟩ := sign_inner sec d i hi j 0 st0 (by omega) (by omega) hinv0
  have hz1 := sign_inner_untouched sec d i hi j 0 st0 st (by omega) (by omega) hz0 h1
  exact ⟨st0, st, h0, h1, by omega, by omega, hinv1, hz1⟩

/-- Every position below 256 is `8 * i + j` for exactly one pair `(i, j)`. -/
theorem position_unique (k : Fin 256) :
    ∃! ij : Fin 32 × Fin 8, 8 * ij.1.val + ij.2.val = k.val := by
  refine ⟨(⟨k.val / 8, by omega⟩, ⟨k.val % 8, by omega⟩), ?_, ?_⟩
  · show 8 * (k.val / 8) + k.val % 8 = k.val
    omega
  · rintro ⟨a, b⟩ hab
    simp only at hab
    refine Prod.ext (Fin.ext ?_) (Fin.ext ?_)
    · show a.val = k.val / 8
      omega
    · show b.val = k.val % 8
      omega

/-- The state of `Verify` at the start of inner iteration `(i, j)`, when that iteration is
reached. -/
theorem verify_state_at (sha256 : Bytes → Block) (pub : PublicKey) (sig : Signature)
    (d : Block) (i j : Nat) (hi : i < 32) (hj : j < 8) (st0 st : VerifyState)
    (h0 : forRange (verifyOuter sha256 pub sig d) 0 i ⟨0, zeroBlocks, zeroBlocks, false⟩ =
      Flow.next st0)
    (h1 : forRange (verifyBody sha256 pub sig (d ⟨i, hi⟩)) 0 j st0 = Flow.next st) :
    st.k = 8 * i + j ∧ st.k < 256 := by
  obtain ⟨oyes, ono⟩ := verify_outer sha256 pub sig d i 0
    ⟨0, zeroBlocks, zeroBlocks, false⟩ (by omega) rfl
  have hk0 : st0.k = 8 * i := by
    by_cases hall : ∀ t, t < 8 * i → okAt sha256 d pub sig (8 * 0 + t)
    · obtain ⟨st0', e, hk, _⟩ := oyes hall
      rw [h0] at e
      cases e
      omega
    · have hex : ∃ t, t < 8 * i ∧ ¬ okAt sha256 d pub sig (8 * 0 + t) := by
        by_contra hcon
        apply hall
        intro t ht
        by_contra hbad
        exact hcon ⟨t, ht, hbad⟩
      rw [ono hex] at h0
      cases h0
  obtain ⟨iyes, ino⟩ := verify_inner sha256 pub sig d i hi j 0 st0 (by omega) (by omega)
  by_cases hall : ∀ t, t < j → okAt sha256 d pub sig (8 * i + 0 + t)
  · obtain ⟨st', e, hk, _⟩ := iyes hall
    rw [h1] at e
    cases e
    omega
  · have hex : ∃ t, t < j ∧ ¬ okAt sha256 d pub sig (8 * i + 0 + t) := by
      by_contra hcon
      apply hall
      intro t ht
      by_contra hbad
      exact hcon ⟨t, ht, hbad⟩
    rw [ino hex] at h1
    cases h1

/-- Inner iteration `(i, j)` of `Verify` is reached when every earlier position checks. -/
theorem verify_state_reached (sha256 : Bytes → Block) (pub : PublicKey) (sig : Signature)
    (d : Block) (i j : Nat) (hi : i < 32) (hj : j < 8)
    (hall : ∀ x : Fin 256, x.val < 8 * i + j → positionOk sha256 d pub sig x) :
    ∃ st0 st,
      forRange (verifyOuter sha256 pub sig d) 0 i ⟨0, zeroBlocks, zeroBlocks, false⟩ =
        Flow.next st0 ∧
      forRange (verifyBody sha256 pub sig (d ⟨i, hi⟩)) 0 j st0 = Flow.next st := by
  obtain ⟨oyes, _⟩ := verify_outer sha256 pub sig d i 0
    ⟨0, zeroBlocks, zeroBlocks, false⟩ (by omega) rfl
  obtain ⟨st0, h0, hk0, _⟩ := oyes (fun t ht hlt => hall ⟨8 * 0 + t, hlt⟩ (by
    show 8 * 0 + t < 8 * i + j
    omega))
  obtain ⟨iyes, _⟩ := verify_inner sha256 pub sig d i hi j 0 st0 (by omega) (by omega)
  obtain ⟨st, h1, _, _⟩ := iyes (fun t ht hlt => hall ⟨8 * i + 0 + t, hlt⟩ (by
    show 8 * i + 0 + t < 8 * i + j
    omega))
  exact ⟨st0, st, h0, h1⟩


/-! ## Replacing one block of an accepted signature -/

/-- An accepted signature is rejected after one of its blocks is replaced by a block with a
different hash. -/
theorem Verify_replaced_block (sha256 : Bytes → Block) (m : Message) (pub : PublicKey)
    (sig : Signature) (hv : Verify sha256 m pub sig = some true) (i : Fin 256) (blk : Block)
    (hne : sha256 blk.slice ≠ sha256 (sig.Preimage i).slice) :
    Verify sha256 m pub ⟨Function.update sig.Preimage i blk⟩ = some false := by
  rw [Verify_eq] at hv
  have hall := of_decide_eq_true (Option.some.inj hv)
  rw [Verify_eq]
  refine congrArg some (decide_eq_false ?_)
  intro hnew
  have h1 := hnew i
  have h2 := hall i
  unfold positionOk at h1 h2
  simp only [Function.update_same] at h1
  exact hne (h1.trans h2.symm)

/-! ## The claims -/

/-- C1. Sign-then-verify: for every message and every key pair whose public blocks are the
hashes of the secret blocks, `Sign` returns a signature and `Verify` accepts it. -/
theorem sign_then_verify (sha256 : Bytes → Block) (m : Message) (sec : SecretKey)
    (pub : PublicKey)
    (hkey : ∀ i : Fin 256, pub.ZeroHash i = sha256 (sec.ZeroPre i).slice ∧
      pub.OneHash i = sha256 (sec.OnePre i).slice) :
    ∃ sig, Sign sha256 m sec = some sig ∧ Verify sha256 m pub sig = some true := by
  refine ⟨⟨revealed sec (sha256 m.slice)⟩, Sign_eq sha256 m sec, ?_⟩
  rw [Verify_eq]
  have hall : ∀ k : Fin 256,
      positionOk sha256 (sha256 m.slice) pub ⟨revealed sec (sha256 m.slice)⟩ k := by
    intro k
    simp only [positionOk, expected, revealed]
    cases digestBit (sha256 m.slice) k
    · exact (hkey k).1.symm
    · exact (hkey k).2.symm
  rw [decide_eq_true hall]

/-- Witness of C1 at the message of `main` and a concrete key pair. -/
theorem sign_then_verify_witness :
    (∀ i : Fin 256, demoPub.ZeroHash i = demoHash (demoSec.ZeroPre i).slice ∧
      demoPub.OneHash i = demoHash (demoSec.OnePre i).slice) ∧
    ∃ sig, Sign demoHash demoMsg demoSec = some sig ∧
      Verify demoHash demoMsg demoPub sig = some true :=
  ⟨fun _ => ⟨rfl, rfl⟩, sign_then_verify demoHash demoMsg demoSec demoPub (fun _ => ⟨rfl, rfl⟩)⟩

/-- C2. `Verify` is the conjunction of the 256 position checks: it returns the boolean of a
full scan, it returns true exactly when every position checks, and false exactly when some
position does not. Position `k` checks when the hash of `sig.Preimage[k]` is `pub.OneHash[k]`
if bit `k` of the digest is set and `pub.ZeroHash[k]` otherwise. -/
theorem verify_is_conjunction (sha256 : Bytes → Block) (m : Message) (pub : PublicKey)
    (sig : Signature) :
    Verify sha256 m pub sig = some ((List.finRange 256).all fun k =>
      decide (sha256 (sig.Preimage k).slice =
        if digestBit (sha256 m.slice) k then pub.OneHash k else pub.ZeroHash k)) ∧
    (Verify sha256 m pub sig = some true ↔
      ∀ k : Fin 256, sha256 (sig.Preimage k).slice =
        if digestBit (sha256 m.slice) k then pub.OneHash k else pub.ZeroHash k) ∧
    (Verify sha256 m pub sig = some false ↔
      ∃ k : Fin 256, sha256 (sig.Preimage k).slice ≠
        if digestBit (sha256 m.slice) k then pub.OneHash k else pub.ZeroHash k) := by
  have hv := Verify_eq sha256 m pub sig
  unfold positionOk expected at hv
  refine ⟨?_, ?_, ?_⟩
  · rw [hv]
    refine congrArg some ?_
    rw [Bool.eq_iff_iff, decide_eq_true_iff, List.all_eq_true]
    constructor
    · intro h k _
      exact decide_eq_true (h k)
    · intro h k
      exact of_decide_eq_true (h k (List.mem_finRange k))
  · rw [hv]
    simp only [Option.some.injEq, decide_eq_true_eq]
  · rw [hv]
    simp only [Option.some.injEq, decide_eq_false_iff_not, not_forall, ne_eq]

/-- C3. Selective reveal: `Sign` returns a signature whose block `k` is `sec.OnePre[k]` if bit
`7 - k mod 8` of byte `k div 8` of the digest `sha256(m)` is set, and `sec.ZeroPre[k]` if not. -/
theorem sign_selective_reveal (sha256 : Bytes → Block) (m : Message) (sec : SecretKey) :
    ∃ sig, Sign sha256 m sec = some sig ∧
      ∀ k : Fin 256, sig.Preimage k =
        if ((sha256 m.slice) ⟨k.val / 8, by omega⟩).val.testBit (7 - k.val % 8)
        then sec.OnePre k else sec.ZeroPre k :=
  ⟨⟨revealed sec (sha256 m.slice)⟩, Sign_eq sha256 m sec, fun _ => rfl⟩

/-- C4. Public-key round trip: decoding the hex text of a public key returns that key, with
no error. -/
theorem pubkey_round_trip (p : PublicKey) : HexToPubkey p.ToHex = Except.ok p :=
  HexToPubkey_ToHex p

/-- C5. Signature round trip: decoding the hex text of a signature returns that signature,
with no error. -/
theorem signature_round_trip (sig : Signature) : HexToSignature sig.ToHex = Except.ok sig :=
  HexToSignature_ToHex sig

/-- C6. `HexToPubkey` fails exactly on malformed text: it returns an error if and only if the
length is not 32768 or some character is not a hex digit; and when it returns a key, decoding
characters `[64i, 64i+64)` gives the bytes of `ZeroHash[i]` and decoding characters
`[64(256+i), 64(256+i)+64)` gives the bytes of `OneHash[i]`. -/
theorem HexToPubkey_fails_iff_malformed (s : Bytes) :
    ((∃ e, HexToPubkey s = Except.error e) ↔
      (s.length ≠ 32768 ∨ ∃ c ∈ s, ¬ isHexDigit c)) ∧
    ∀ p, HexToPubkey s = Except.ok p → ∀ i : Fin 256,
      DecodeString ((s.drop (64 * i.val)).take 64) = Except.ok (p.ZeroHash i).slice ∧
      DecodeString ((s.drop (64 * (256 + i.val))).take 64) =
        Except.ok (p.OneHash i).slice := by
  by_cases hlen : s.length = 32768
  · rcases DecodeString_even s (by rw [hlen]) with ⟨hd, hall⟩ | ⟨⟨e, he⟩, hbad⟩
    · have hok := HexToPubkey_of_decode s _ hlen hd
      refine ⟨⟨?_, ?_⟩, ?_⟩
      · rintro ⟨e, he⟩
        rw [hok] at he
        cases he
      · rintro (h | ⟨c, hc, hbad⟩)
        · exact absurd hlen h
        · exact absurd (hall c hc) hbad
      · intro p hp i
        rw [hok] at hp
        cases hp
        exact ⟨DecodeString_chunk s hall i.val (by omega),
          DecodeString_chunk s hall (256 + i.val) (by omega)⟩
    · have herr := HexToPubkey_of_hex s e hlen he
      refine ⟨⟨fun _ => Or.inr hbad, fun _ => ⟨_, herr⟩⟩, ?_⟩
      intro p hp
      rw [herr] at hp
      cases hp
  · have herr := HexToPubkey_of_length s hlen
    refine ⟨⟨fun _ => Or.inl hlen, fun _ => ⟨_, herr⟩⟩, ?_⟩
    intro p hp
    rw [herr] at hp
    cases hp

/-- Witness of C6: strings of 32767 and of 32769 characters and a string of 32768 letters `G`
are rejected; the text of a concrete key is accepted and its blocks decode as stated. -/
theorem HexToPubkey_fails_iff_malformed_witness :
    (∃ e, HexToPubkey (List.replicate 32767 48) = Except.error e) ∧
    (∃ e, HexToPubkey (List.replicate 32769 48) = Except.error e) ∧
    (∃ e, HexToPubkey (List.replicate 32768 71) = Except.error e) ∧
    HexToPubkey demoPub.ToHex = Except.ok demoPub ∧
    ∀ i : Fin 256,
      DecodeString ((demoPub.ToHex.drop (64 * i.val)).take 64) =
        Except.ok (demoPub.ZeroHash i).slice ∧
      DecodeString ((demoPub.ToHex.drop (64 * (256 + i.val))).take 64) =
        Except.ok (demoPub.OneHash i).slice :=
  ⟨(HexToPubkey_fails_iff_malformed _).1.mpr
      (Or.inl (by rw [List.length_replicate]; decide)),
    (HexToPubkey_fails_iff_malformed _).1.mpr
      (Or.inl (by rw [List.length_replicate]; decide)),
    (HexToPubkey_fails_iff_malformed _).1.mpr
      (Or.inr ⟨71, List.mem_replicate.mpr ⟨by decide, rfl⟩, by decide⟩),
    HexToPubkey_ToHex demoPub,
    (HexToPubkey_fails_iff_malformed demoPub.ToHex).2 demoPub (HexToPubkey_ToHex demoPub)⟩

/-- C7. `HexToSignature` fails exactly on malformed text: it returns an error if and only if
the length is not 16384 or some character is not a hex digit; and when it returns a signature,
decoding characters `[64i, 64i+64)` gives the bytes of `Preimage[i]`. -/
theorem HexToSignature_fails_iff_malformed (s : Bytes) :
    ((∃ e, HexToSignature s = Except.error e) ↔
      (s.length ≠ 16384 ∨ ∃ c ∈ s, ¬ isHexDigit c)) ∧
    ∀ sig, HexToSignature s = Except.ok sig → ∀ i : Fin 256,
      DecodeString ((s.drop (64 * i.val)).take 64) = Except.ok (sig.Preimage i).slice := by
  by_cases hlen : s.length = 16384
  · rcases DecodeString_even s (by rw [hlen]) with ⟨hd, hall⟩ | ⟨⟨e, he⟩, hbad⟩
    · have hok := HexToSignature_of_decode s _ hlen hd
      refine ⟨⟨?_, ?_⟩, ?_⟩
      · rintro ⟨e, he⟩
        rw [hok] at he
        cases he
      · rintro (h | ⟨c, hc, hbad⟩)
        · exact absurd hlen h
        · exact absurd (hall c hc) hbad
      · intro sig hp i
        rw [hok] at hp
        cases hp
        exact DecodeString_chunk s hall i.val (by omega)
    · have herr := HexToSignature_of_hex s e hlen he
      refine ⟨⟨fun _ => Or.inr hbad, fun _ => ⟨_, herr⟩⟩, ?_⟩
      intro sig hp
      rw [herr] at hp
      cases hp
  · have herr := HexToSignature_of_length s hlen
    refine ⟨⟨fun _ => Or.inl hlen, fun _ => ⟨_, herr⟩⟩, ?_⟩
    intro sig hp
    rw [herr] at hp
    cases hp

/-- Witness of C7: strings of 16383 and of 16385 characters and a string of 16384 letters `G`
are rejected; the text of a concrete signature is accepted and its blocks decode as stated. -/
theorem HexToSignature_fails_iff_malformed_witness :
    (∃ e, HexToSignature (List.replicate 16383 48) = Except.error e) ∧
    (∃ e, HexToSignature (List.replicate 16385 48) = Except.error e) ∧
    (∃ e, HexToSignature (List.replicate 16384 71) = Except.error e) ∧
    HexToSignature demoSig.ToHex = Except.ok demoSig ∧
    ∀ i : Fin 256,
      DecodeString ((demoSig.ToHex.drop (64 * i.val)).take 64) =
        Except.ok (demoSig.Preimage i).slice :=
  ⟨(HexToSignature_fails_iff_malformed _).1.mpr
      (Or.inl (by rw [List.length_replicate]; decide)),
    (HexToSignature_fails_iff_malformed _).1.mpr
      (Or.inl (by rw [List.length_replicate]; decide)),
    (HexToSignature_fails_iff_malformed _).1.mpr
      (Or.inr ⟨71, List.mem_replicate.mpr ⟨by decide, rfl⟩, by decide⟩),
    HexToSignature_ToHex demoSig,
    (HexToSignature_fails_iff_malformed demoSig.ToHex).2 demoSig (HexToSignature_ToHex demoSig)⟩

/-- C8. Block text encoding: `b.ToHex()` has exactly 64 characters, each a lowercase hex digit,
and characters `2i` and `2i+1` are the digits of the high and of the low nibble of `b[i]`. -/
theorem block_ToHex_format (b : Block) :
    b.ToHex.length = 64 ∧ (∀ c ∈ b.ToHex, isLowerHexDigit c) ∧
    ∀ i : Fin 32, b.ToHex[2 * i.val]? = some (hexDigit ((b i).val / 16)) ∧
      b.ToHex[2 * i.val + 1]? = some (hexDigit ((b i).val % 16)) := by
  refine ⟨blockToHex_length b, ?_, ?_⟩
  · rw [ToHex_eq_encode]
    exact EncodeToString_lower _
  · intro i
    have hi : i.val < b.slice.length := by
      rw [slice_length]
      exact i.isLt
    have h := EncodeToString_getElem? b.slice i.val hi
    have hg : b.slice.get ⟨i.val, hi⟩ = b i := get_ofFn b i hi
    rw [hg] at h
    rw [ToHex_eq_encode]
    exact h

/-- C9. Public-key wire format: `p.ToHex()` has exactly 32768 characters; characters
`[64i, 64i+64)` are `p.ZeroHash[i].ToHex()` and characters `[64(256+i), 64(256+i)+64)` are
`p.OneHash[i].ToHex()`. -/
theorem pubkey_wire_format (p : PublicKey) :
    p.ToHex.length = 32768 ∧
    ∀ i : Fin 256, (p.ToHex.drop (64 * i.val)).take 64 = (p.ZeroHash i).ToHex ∧
      (p.ToHex.drop (64 * (256 + i.val))).take 64 = (p.OneHash i).ToHex := by
  refine ⟨pubkeyToHex_length p, fun i => ⟨?_, ?_⟩⟩
  · have hi : i.val < p.blocks.length := by
      rw [pubkeyBlocks_length]
      omega
    rw [pubkeyToHex_eq, flatMap_drop_take _ 64 blockToHex_length _ _ hi,
      pubkeyBlocks_get_zero]
  · have hi : 256 + i.val < p.blocks.length := by
      rw [pubkeyBlocks_length]
      omega
    rw [pubkeyToHex_eq, flatMap_drop_take _ 64 blockToHex_length _ _ hi,
      pubkeyBlocks_get_one]

/-- C10. Signature wire format: `sig.ToHex()` has exactly 16384 characters and characters
`[64i, 64i+64)` are `sig.Preimage[i].ToHex()`. -/
theorem signature_wire_format (sig : Signature) :
    sig.ToHex.length = 16384 ∧
    ∀ i : Fin 256, (sig.ToHex.drop (64 * i.val)).take 64 = (sig.Preimage i).ToHex := by
  refine ⟨sigToHex_length sig, fun i => ?_⟩
  have hi : i.val < (List.ofFn sig.Preimage).length := by
    rw [List.length_ofFn]
    exact i.isLt
  rw [sigToHex_eq, flatMap_drop_take _ 64 blockToHex_length _ _ hi, get_ofFn]

/-- C11. Key consistency: whenever `GenerateKey` returns `(sec, pub, nil)`, every public block
is the hash of the secret block at the same place, so that `IsPreimage` holds there. -/
theorem key_consistency (sha256 : Bytes → Block) (rng : RandSource) (sec : SecretKey)
    (pub : PublicKey) (h : GenerateKey sha256 rng = some (sec, pub, none)) :
    ∀ i : Fin 256,
      sha256 (sec.ZeroPre i).slice = pub.ZeroHash i ∧
      sha256 (sec.OnePre i).slice = pub.OneHash i ∧
      Block.IsPreimage sha256 (sec.ZeroPre i) (pub.ZeroHash i) = true ∧
      Block.IsPreimage sha256 (sec.OnePre i) (pub.OneHash i) = true := by
  obtain ⟨st, _, _, hinv, hr⟩ := GenerateKey_eq_of_returns sha256 rng _ h
  have hsec : sec = st.sec := congrArg Prod.fst hr
  have hpub : pub = st.pub := congrArg (fun r => r.2.1) hr
  intro i
  obtain ⟨_, _, hz, ho⟩ := hinv i i.isLt
  rw [hsec, hpub]
  refine ⟨hz.symm, ho.symm, ?_, ?_⟩
  · unfold Block.IsPreimage Block.Hash
    exact decide_eq_true hz.symm
  · unfold Block.IsPreimage Block.Hash
    exact decide_eq_true ho.symm

/-- Witness of C11: on a random source whose reads all succeed `GenerateKey` returns a key
pair with a nil error, and that pair is consistent. -/
theorem key_consistency_witness :
    ∃ sec pub, GenerateKey demoHash countSource = some (sec, pub, none) ∧
      ∀ i : Fin 256,
        demoHash (sec.ZeroPre i).slice = pub.ZeroHash i ∧
        demoHash (sec.OnePre i).slice = pub.OneHash i ∧
        Block.IsPreimage demoHash (sec.ZeroPre i) (pub.ZeroHash i) = true ∧
        Block.IsPreimage demoHash (sec.OnePre i) (pub.OneHash i) = true := by
  rcases GenerateKey_outcome demoHash countSource with ⟨_, st, _, _, _, h4⟩ | ⟨⟨t, _, hbad⟩, _⟩
  · exact ⟨st.sec, st.pub, h4, key_consistency demoHash countSource st.sec st.pub h4⟩
  · cases hbad

/-- C12, on the code: a failed read makes `GenerateKey` panic, it never returns a non-nil
error, and it panics on the random source whose reads all fail. -/
theorem GenerateKey_read_failure_panics :
    (∀ (sha256 : Bytes → Block) (rng : RandSource),
      (∃ t, t < 512 ∧ rng t = none) → GenerateKey sha256 rng = none) ∧
    (∀ (sha256 : Bytes → Block) (rng : RandSource) (sec : SecretKey) (pub : PublicKey)
      (e : GoError), GenerateKey sha256 rng ≠ some (sec, pub, some e)) ∧
    GenerateKey demoHash failingSource = none := by
  have hp : ∀ (sha256 : Bytes → Block) (rng : RandSource),
      (∃ t, t < 512 ∧ rng t = none) → GenerateKey sha256 rng = none := by
    intro sha256 rng h
    simp only [GenerateKey, generateLoop_panic sha256 rng h]
  refine ⟨hp, ?_, hp demoHash failingSource ⟨0, by decide, rfl⟩⟩
  intro sha256 rng sec pub e h
  obtain ⟨st, _, _, _, hr⟩ := GenerateKey_eq_of_returns sha256 rng _ h
  have := congrArg (fun r => r.2.2) hr
  cases this

/-- C14, counterexample: on the one-byte slice `[1]` the first byte of the block is 1, not 0,
and the last byte is 0, not 1. -/
theorem BlockFromByteSlice_not_left_padded :
    BlockFromByteSlice [1] 0 ≠ 0 ∧ BlockFromByteSlice [1] 31 ≠ 1 := by
  decide

/-- C14, amended. `BlockFromByteSlice` right-pads short input: for a slice of length `n < 32`
the block is the slice followed by `32 - n` zero bytes. -/
theorem BlockFromByteSlice_right_pads (bys : Bytes) (h : bys.length < 32) :
    (BlockFromByteSlice bys).slice = bys ++ List.replicate (32 - bys.length) 0 := by
  rw [slice_BlockFromByteSlice_pad, List.take_of_length_le (by omega)]

/-- Witness of the amended C14 on the slice `[1]`. -/
theorem BlockFromByteSlice_right_pads_witness :
    ([1] : Bytes).length < 32 ∧
      (BlockFromByteSlice [1]).slice = [1] ++ List.replicate (32 - ([1] : Bytes).length) 0 :=
  ⟨by decide, BlockFromByteSlice_right_pads [1] (by decide)⟩

/-- C15. `BlockFromByteSlice` copies a leading part of its argument: byte `i` of the block is
`by[i]` if `i < len(by)` and 0 otherwise; a slice of exactly 32 bytes is returned unchanged and
a longer slice is cut to its first 32 bytes. -/
theorem BlockFromByteSlice_copies_front (bys : Bytes) :
    (∀ i : Fin 32, BlockFromByteSlice bys i = bys.getD i.val 0) ∧
    (bys.length = 32 → (BlockFromByteSlice bys).slice = bys) ∧
    (32 ≤ bys.length → (BlockFromByteSlice bys).slice = bys.take 32) := by
  refine ⟨BlockFromByteSlice_apply bys, slice_BlockFromByteSlice bys, fun h => ?_⟩
  rw [slice_BlockFromByteSlice_pad, Nat.sub_eq_zero_of_le h, List.replicate_zero,
    List.append_nil]

/-- C16, counterexample: on the random source whose read `t` is filled with `t mod 256`,
`GenerateKey` returns keys in which `ZeroPre[1]` is not read 1 and `OnePre[0]` is not read
256. -/
theorem GenerateKey_draws_interleaved :
    ∃ sec pub, GenerateKey demoHash countSource = some (sec, pub, none) ∧
      countSource 1 ≠ some (sec.ZeroPre 1) ∧ countSource 256 ≠ some (sec.OnePre 0) := by
  rcases GenerateKey_outcome demoHash countSource with
    ⟨_, st, _, _, hinv, h4⟩ | ⟨⟨t, _, hbad⟩, _⟩
  · refine ⟨st.sec, st.pub, h4, ?_, ?_⟩
    · intro h
      have h2 := (hinv 1 (by decide)).1
      have e : countSource 1 = countSource (2 * (1 : Fin 256).val) := h.trans h2.symm
      have := congrFun (Option.some.inj e) 0
      revert this
      decide
    · intro h
      have h2 := (hinv 0 (by decide)).2.1
      have e : countSource 256 = countSource (2 * (0 : Fin 256).val + 1) := h.trans h2.symm
      have := congrFun (Option.some.inj e) 0
      revert this
      decide
  · cases hbad

/-- C16, amended. Order of the random draws: a successful `GenerateKey` makes exactly 512
reads and takes them alternately, `ZeroPre[i]` from read `2i` and `OnePre[i]` from read
`2i+1`. -/
theorem GenerateKey_draw_order (sha256 : Bytes → Block) (rng : RandSource) (sec : SecretKey)
    (pub : PublicKey) (h : GenerateKey sha256 rng = some (sec, pub, none)) :
    (∃ st, generateLoop sha256 rng = Flow.next st ∧ st.reads = 512) ∧
    ∀ i : Fin 256, rng (2 * i.val) = some (sec.ZeroPre i) ∧
      rng (2 * i.val + 1) = some (sec.OnePre i) := by
  obtain ⟨st, h1, h2, hinv, hr⟩ := GenerateKey_eq_of_returns sha256 rng _ h
  have hsec : sec = st.sec := congrArg Prod.fst hr
  refine ⟨⟨st, h1, h2⟩, fun i => ?_⟩
  obtain ⟨hz, ho, _, _⟩ := hinv i i.isLt
  rw [hsec]
  exact ⟨hz, ho⟩

/-- Witness of the amended C16 on the random source whose read `t` is filled with
`t mod 256`. -/
theorem GenerateKey_draw_order_witness :
    ∃ sec pub, GenerateKey demoHash countSource = some (sec, pub, none) ∧
      (∃ st, generateLoop demoHash countSource = Flow.next st ∧ st.reads = 512) ∧
      ∀ i : Fin 256, countSource (2 * i.val) = some (sec.ZeroPre i) ∧
        countSource (2 * i.val + 1) = some (sec.OnePre i) := by
  rcases GenerateKey_outcome demoHash countSource with ⟨_, st, _, _, _, h4⟩ | ⟨⟨t, _, hbad⟩, _⟩
  · exact ⟨st.sec, st.pub, h4, GenerateKey_draw_order demoHash countSource st.sec st.pub h4⟩
  · cases hbad

/-- C17. `Sign` does not depend on the unselected halves of the secret key: two secret keys
that agree on `OnePre[k]` wherever bit `k` of the digest is 1 and on `ZeroPre[k]` wherever it
is 0 give the same signature. -/
theorem sign_noninterference (sha256 : Bytes → Block) (m : Message) (sec sec' : SecretKey)
    (h : ∀ k : Fin 256,
      (digestBit (sha256 m.slice) k = true → sec.OnePre k = sec'.OnePre k) ∧
      (digestBit (sha256 m.slice) k = false → sec.ZeroPre k = sec'.ZeroPre k)) :
    Sign sha256 m sec = Sign sha256 m sec' ∧ ∃ sig, Sign sha256 m sec = some sig := by
  refine ⟨?_, _, Sign_eq sha256 m sec⟩
  rw [Sign_eq, Sign_eq]
  refine congrArg some (congrArg Signature.mk ?_)
  funext k
  unfold revealed
  cases hb : digestBit (sha256 m.slice) k
  · exact (h k).2 hb
  · exact (h k).1 hb

/-- Witness of C17: two secret keys that differ on an unselected block (`ZeroPre[2]`) and agree
on the selected ones. -/
theorem sign_noninterference_witness :
    (∀ k : Fin 256,
      (digestBit (demoHash demoMsg.slice) k = true → demoSec.OnePre k = demoSecAlt.OnePre k) ∧
      (digestBit (demoHash demoMsg.slice) k = false →
        demoSec.ZeroPre k = demoSecAlt.ZeroPre k)) ∧
    demoSec.ZeroPre 2 ≠ demoSecAlt.ZeroPre 2 ∧
    Sign demoHash demoMsg demoSec = Sign demoHash demoMsg demoSecAlt ∧
    ∃ sig, Sign demoHash demoMsg demoSec = some sig := by
  have hagree : ∀ k : Fin 256,
      (digestBit (demoHash demoMsg.slice) k = true → demoSec.OnePre k = demoSecAlt.OnePre k) ∧
      (digestBit (demoHash demoMsg.slice) k = false →
        demoSec.ZeroPre k = demoSecAlt.ZeroPre k) := by
    intro k
    constructor
    · intro hb
      simp only [demoSecAlt, hb, if_true]
    · intro hb
      simp only [demoSecAlt, hb, Bool.false_eq_true, if_false]
  refine ⟨hagree, ?_, sign_noninterference demoHash demoMsg demoSec demoSecAlt hagree⟩
  intro hne
  have := congrFun hne 1
  revert this
  decide

/-- C18. Key reuse permits forgery by mixing: with a consistent key pair, if every digest bit
of `m3` equals the same bit of `m1` or of `m2`, the signature that takes block `k` from the
signature of `m1` where the bits of `m3` and `m1` agree, and from the signature of `m2`
elsewhere, is accepted for `m3`. -/
theorem forgery_by_mixing (sha256 : Bytes → Block) (sec : SecretKey) (pub : PublicKey)
    (m1 m2 m3 : Message)
    (hkey : ∀ i : Fin 256, pub.ZeroHash i = sha256 (sec.ZeroPre i).slice ∧
      pub.OneHash i = sha256 (sec.OnePre i).slice)
    (hbits : ∀ k : Fin 256,
      digestBit (sha256 m3.slice) k = digestBit (sha256 m1.slice) k ∨
      digestBit (sha256 m3.slice) k = digestBit (sha256 m2.slice) k) :
    ∃ sig1 sig2, Sign sha256 m1 sec = some sig1 ∧ Sign sha256 m2 sec = some sig2 ∧
      Verify sha256 m3 pub
        ⟨fun k => if digestBit (sha256 m3.slice) k = digestBit (sha256 m1.slice) k
          then sig1.Preimage k else sig2.Preimage k⟩ = some true := by
  refine ⟨_, _, Sign_eq sha256 m1 sec, Sign_eq sha256 m2 sec, ?_⟩
  rw [Verify_eq]
  refine congrArg some (decide_eq_true ?_)
  intro k
  simp only [positionOk, expected, revealed]
  by_cases h1 : digestBit (sha256 m3.slice) k = digestBit (sha256 m1.slice) k
  · rw [if_pos h1, ← h1]
    cases digestBit (sha256 m3.slice) k
    · exact (hkey k).1.symm
    · exact (hkey k).2.symm
  · have h2 := (hbits k).resolve_left h1
    rw [if_neg h1, ← h2]
    cases digestBit (sha256 m3.slice) k
    · exact (hkey k).1.symm
    · exact (hkey k).2.symm

set_option maxRecDepth 100000 in
/-- Witness of C18 on three different messages. -/
theorem forgery_by_mixing_witness :
    (∀ i : Fin 256, demoPub.ZeroHash i = demoHash (demoSec.ZeroPre i).slice ∧
      demoPub.OneHash i = demoHash (demoSec.OnePre i).slice) ∧
    (∀ k : Fin 256,
      digestBit (demoHash demoMsg3.slice) k = digestBit (demoHash demoMsg1.slice) k ∨
      digestBit (demoHash demoMsg3.slice) k = digestBit (demoHash demoMsg2.slice) k) ∧
    demoMsg3 ≠ demoMsg1 ∧ demoMsg3 ≠ demoMsg2 ∧
    ∃ sig1 sig2, Sign demoHash demoMsg1 demoSec = some sig1 ∧
      Sign demoHash demoMsg2 demoSec = some sig2 ∧
      Verify demoHash demoMsg3 demoPub
        ⟨fun k => if digestBit (demoHash demoMsg3.slice) k =
            digestBit (demoHash demoMsg1.slice) k
          then sig1.Preimage k else sig2.Preimage k⟩ = some true :=
  ⟨fun _ => ⟨rfl, rfl⟩, by decide, by decide, by decide,
    forgery_by_mixing demoHash demoSec demoPub demoMsg1 demoMsg2 demoMsg3
      (fun _ => ⟨rfl, rfl⟩) (by decide)⟩

/-- C19. Decoding canonicalises case: when `HexToPubkey(s)` returns a key `p`, `p.ToHex()` is
`s` with every `A-F` replaced by its lowercase form, and it is `s` itself when `s` is
all lowercase. -/
theorem decoding_canonicalises_case (s : Bytes) (p : PublicKey)
    (h : HexToPubkey s = Except.ok p) :
    p.ToHex = s.map toLowerHex ∧ ((∀ c ∈ s, isLowerHexDigit c) → p.ToHex = s) := by
  obtain ⟨hlen, hall, hb⟩ := blocks_of_HexToPubkey s p h
  have hmap : p.ToHex = s.map toLowerHex := by
    rw [pubkeyToHex_eq, flatMap_ToHex_eq_encode, hb, encode_decodePairs s hall (by rw [hlen])]
  refine ⟨hmap, fun hlow => ?_⟩
  rw [hmap]
  exact map_eq_self_of_forall _ s (fun c hc => toLowerHex_of_lower c (hlow c hc))

/-- Witness of C19: the text of 32768 letters `A` is accepted and the key it gives is written
back as 32768 letters `a`. -/
theorem decoding_canonicalises_case_witness :
    ∃ p, HexToPubkey (List.replicate 32768 65) = Except.ok p ∧
      p.ToHex = List.replicate 32768 97 := by
  obtain ⟨p, hp⟩ := HexToPubkey_accepts (List.replicate 32768 65)
    (List.length_replicate _ _)
    (fun c hc => by
      rw [List.eq_of_mem_replicate hc]
      decide)
  refine ⟨p, hp, ?_⟩
  rw [(decoding_canonicalises_case _ p hp).1, List.map_replicate]
  exact congrArg (List.replicate 32768) (by decide)

/-- C20. Index safety of the bit loops. In `Sign` the state at the start of inner iteration
`(i, j)` has `k = 8 * i + j < 256`, the positions below `k` hold the selected secret blocks and
the positions from `k` on are still unwritten; an inner iteration writes at position `k` the
secret block selected by the tested bit, changes no other position and increments `k`; every
position is `8 * i + j` for exactly one `(i, j)`; so each of the 256 positions is written
exactly once. In `Verify` inner iteration `(i, j)` is reached when all earlier positions check,
and whenever it is reached `k = 8 * i + j < 256`. Neither function panics. -/
theorem index_safety (sha256 : Bytes → Block) (m : Message) (sec : SecretKey)
    (pub : PublicKey) (sig : Signature) :
    (∀ (i : Fin 32) (j : Fin 8), ∃ st0 st,
      forRange (signOuter sec (sha256 m.slice)) 0 i.val ⟨0, ⟨zeroBlocks⟩⟩ = Flow.next st0 ∧
      forRange (signBody sec (sha256 m.slice i)) 0 j.val st0 = Flow.next st ∧
      st.k = 8 * i.val + j.val ∧ st.k < 256 ∧
      (∀ x : Fin 256, x.val < st.k → st.sig.Preimage x =
        if digestBit (sha256 m.slice) x then sec.OnePre x else sec.ZeroPre x) ∧
      (∀ x : Fin 256, st.k ≤ x.val → st.sig.Preimage x = zeroBlock)) ∧
    (∀ (b : Byte) (j : Nat) (st : SignState) (h : st.k < 256),
      signBody sec b j st =
        Flow.next ⟨st.k + 1, ⟨Function.update st.sig.Preimage ⟨st.k, h⟩
          (if bitSet b j then sec.OnePre ⟨st.k, h⟩ else sec.ZeroPre ⟨st.k, h⟩)⟩⟩) ∧
    (∀ k : Fin 256, ∃! ij : Fin 32 × Fin 8, 8 * ij.1.val + ij.2.val = k.val) ∧
    (∀ (i : Fin 32) (j : Fin 8),
      (∀ x : Fin 256, x.val < 8 * i.val + j.val →
        positionOk sha256 (sha256 m.slice) pub sig x) →
      ∃ st0 st,
        forRange (verifyOuter sha256 pub sig (sha256 m.slice)) 0 i.val
          ⟨0, zeroBlocks, zeroBlocks, false⟩ = Flow.next st0 ∧
        forRange (verifyBody sha256 pub sig (sha256 m.slice i)) 0 j.val st0 = Flow.next st) ∧
    (∀ (i : Fin 32) (j : Fin 8) (st0 st : VerifyState),
      forRange (verifyOuter sha256 pub sig (sha256 m.slice)) 0 i.val
        ⟨0, zeroBlocks, zeroBlocks, false⟩ = Flow.next st0 →
      forRange (verifyBody sha256 pub sig (sha256 m.slice i)) 0 j.val st0 = Flow.next st →
      st.k = 8 * i.val + j.val ∧ st.k < 256) ∧
    (∃ s, Sign sha256 m sec = some s) ∧ (∃ r, Verify sha256 m pub sig = some r) :=
  ⟨fun i j => sign_state_at sec (sha256 m.slice) i.val j.val i.isLt j.isLt,
    fun b j st h => signBody_writes sec b j st h,
    position_unique,
    fun i j hall =>
      verify_state_reached sha256 pub sig (sha256 m.slice) i.val j.val i.isLt j.isLt hall,
    fun i j st0 st h0 h1 =>
      verify_state_at sha256 pub sig (sha256 m.slice) i.val j.val i.isLt j.isLt st0 st h0 h1,
    ⟨_, Sign_eq sha256 m sec⟩, ⟨_, Verify_eq sha256 m pub sig⟩⟩

end Lamport
